import Mathlib

/-!
Directory lister `myls.c`.

Shallow embedding of `src/myls.c` and the properties of its argument parsing,
directory listing, entry printing and sorting.

Conventions of the embedding:

* a C string is the list of its bytes before the terminating NUL (`CStr`), one
  `Char` per byte;
* the host is read-only during a run: the file system is a record of the results
  of the system calls the program makes (`FileSystem`), the user database and the
  time zone are another record (`Env`);
* what the program writes is a trace of `Event`s, one per output action, in
  program order; `Event.render` gives the bytes each one puts on standard output;
* the global `finished` is returned next to the trace;
* undefined behaviour (a write past `entries[1023]`, a read through a NULL
  `getpwuid` result) and an exhausted recursion budget are `Except` errors.
-/

namespace Myls

/-- C string: the bytes before the terminating NUL. -/
abbrev CStr := List Char

/-- Bytes of a literal. -/
def cstr (s : String) : CStr := s.toList

/-- Line 12: `#define MAX_PATH_LENGTH 1024`. -/
def MAX_PATH_LENGTH : Nat := 1024

/-- Capacity of `entries` and of `subdirectories` (lines 77-78). -/
def MAX_ENTRIES : Nat := 1024

/-! ## `<sys/stat.h>` constants (Linux values) -/

def S_IFMT : Nat := 0o170000
def S_IFREG : Nat := 0o100000
def S_IFDIR : Nat := 0o040000
def S_IFLNK : Nat := 0o120000
def S_IRUSR : Nat := 0o400
def S_IWUSR : Nat := 0o200
def S_IXUSR : Nat := 0o100
def S_IRGRP : Nat := 0o040
def S_IWGRP : Nat := 0o020
def S_IXGRP : Nat := 0o010
def S_IROTH : Nat := 0o004
def S_IWOTH : Nat := 0o002
def S_IXOTH : Nat := 0o001

/-- Macro `S_ISDIR(m)`. -/
def S_ISDIR (m : Nat) : Bool := m &&& S_IFMT == S_IFDIR

/-- Macro `S_ISLNK(m)`. -/
def S_ISLNK (m : Nat) : Bool := m &&& S_IFMT == S_IFLNK

/-- The fields of `struct stat` that the program reads. -/
structure Stat where
  st_mode : Nat
  st_ino : Nat
  st_nlink : Nat
  st_uid : Nat
  st_gid : Nat
  st_size : Int
  st_mtime : Int
deriving DecidableEq

/-- Results of the file-system calls of one run, by path. -/
structure FileSystem where
  /-- `opendir` followed by `readdir` until NULL: the `d_name`s in the order they
  are returned, `.` and `..` included; `none` when `opendir` returns NULL. -/
  opendir : CStr → Option (List CStr)
  /-- Whether `access(path, F_OK)` is 0. -/
  access : CStr → Bool
  /-- The metadata `lstat` stores; `none` when it returns -1. -/
  lstat : CStr → Option Stat
  /-- The whole target of a symbolic link; `none` when `readlink` returns -1. -/
  readlink : CStr → Option CStr

/-- User database and time zone of the run. -/
structure Env where
  /-- The `pw_name` of `getpwuid(uid)`; `none` when it returns NULL. -/
  getpwuid : Nat → Option CStr
  /-- The `gr_name` of `getgrgid(gid)`; `none` when it returns NULL. -/
  getgrgid : Nat → Option CStr
  /-- What `strftime` writes for `"%b %d %Y %H:%M"` at `localtime(&t)`; `none` when
  `localtime` returns NULL. -/
  strftime_localtime : Int → Option CStr

/-- Ways a run leaves defined behaviour or the recursion budget of the model. -/
inductive Fault where
  | buffer_overflow
  | null_dereference
  | out_of_fuel
deriving DecidableEq

/-! ## libc string functions -/

/-- Function `strcmp`: difference of the first differing bytes (as unsigned
values), 0 when the strings agree up to their terminators. -/
def strcmp : CStr → CStr → Int
  | [], [] => 0
  | [], b :: _ => 0 - (b.toNat : Int)
  | a :: _, [] => (a.toNat : Int)
  | a :: as, b :: bs =>
    if a ≠ b then (a.toNat : Int) - (b.toNat : Int)
    else if a.toNat = 0 then 0
    else strcmp as bs

/-- Function `strrchr(s, c)` for `c` other than NUL: the suffix of `s` that
starts at the last occurrence of `c`. -/
def strrchr : CStr → Char → Option CStr
  | [], _ => none
  | x :: xs, c =>
    match strrchr xs c with
    | some r => some r
    | none => if x = c then some (x :: xs) else none

/-- Call `snprintf(buf, sizeof(buf), "%s/%s", path, name)` with a buffer of
`MAX_PATH_LENGTH` bytes: at most `MAX_PATH_LENGTH - 1` bytes are kept. -/
def snprintf_path (path name : CStr) : CStr :=
  (path ++ '/' :: name).take (MAX_PATH_LENGTH - 1)

/-- Left-justified field of `printf` (`%-Ns`): padded with spaces on the right
up to `width`, never shortened. -/
def pad_right (width : Nat) (s : CStr) : CStr :=
  s ++ List.replicate (width - s.length) ' '

/-- Conversion `%ld` / `%lld`. -/
def format_signed (n : Int) : CStr :=
  if n < 0 then '-' :: Nat.toDigits 10 n.natAbs else Nat.toDigits 10 n.natAbs

/-- Cast to `long` / `long long` (64 bits). -/
def to_long (n : Int) : Int := (n + 2 ^ 63) % 2 ^ 64 - 2 ^ 63

/-! ## Output -/

/-- Fields of a long-format line (lines 187-239). -/
structure Details where
  file_mode : CStr
  st_nlink : Int
  pw_name : CStr
  gr_name : CStr
  st_size : Int
  date : CStr
  /-- Text after `-> `, for a symbolic link whose `readlink` succeeded. -/
  target : Option CStr
deriving DecidableEq

/-- One output action of the program. -/
inductive Event where
  /-- Entry into `list_directory(path, ...)` (writes nothing). -/
  | call (path : CStr)
  /-- Call `perror("Error")`: a line on standard error. -/
  | perror
  /-- Lines 131 and 151: `printf("%s:\n", path)`. -/
  | header (path : CStr)
  /-- Lines 66 and 160: `printf("\n")`. -/
  | newline
  /-- The line `print_file_info` prints for one entry. -/
  | entry (index : Option Nat) (details : Option Details) (name : CStr)
  /-- Line 46. -/
  | unsupported_option
  /-- Line 86. -/
  | nonexistent
deriving DecidableEq

/-- Bytes of the long-format fields before the name (lines 217-222). -/
def Details.render (d : Details) : CStr :=
  pad_right 11 d.file_mode ++ cstr " " ++
  pad_right 6 (format_signed d.st_nlink) ++ cstr " " ++
  pad_right 15 d.pw_name ++ cstr " " ++
  pad_right 15 d.gr_name ++ cstr " " ++
  pad_right 10 (format_signed d.st_size) ++ cstr " " ++
  d.date ++ cstr " "

/-- Bytes an event puts on standard output. -/
def Event.render : Event → CStr
  | .call _ => []
  | .perror => []
  | .header path => path ++ cstr ":\n"
  | .newline => cstr "\n"
  | .entry index details name =>
    (match index with
      | some ino => pad_right 10 (Nat.toDigits 10 ino) ++ cstr " "
      | none => []) ++
    (match details with
      | some d =>
        d.render ++ name ++ cstr " " ++
        (match d.target with
          | some t => cstr "-> " ++ t
          | none => []) ++ cstr "\n"
      | none => name ++ cstr "\n")
  | .unsupported_option => cstr "Error: Unsupported Option\n"
  | .nonexistent => cstr "Error: Nonexistent files or directories\n"

/-- Standard output of a trace. -/
def stdout (trace : List Event) : CStr := (trace.map Event.render).flatten

/-- Names on the entry lines of a trace, in order. -/
def printed_names (trace : List Event) : List CStr :=
  trace.filterMap fun e =>
    match e with
    | .entry _ _ name => some name
    | _ => none

/-- Paths `list_directory` was entered with, in order. -/
def visited (trace : List Event) : List CStr :=
  trace.filterMap fun e =>
    match e with
    | .call path => some path
    | _ => none

/-! ## `sort_lexicographically` (lines 252-262) -/

/-- Lines 255-259: exchange `arr[j]` and `arr[j + 1]` when out of order. -/
def swap_if_greater (arr : List CStr) (j : Nat) : List CStr :=
  match arr[j]?, arr[j + 1]? with
  | some a, some b => if strcmp a b > 0 then (arr.set j b).set (j + 1) a else arr
  | _, _ => arr

/-- Inner loop (line 254), with `n` iterations left and `j` the current index. -/
def inner_loop : Nat → Nat → List CStr → List CStr
  | 0, _, arr => arr
  | n + 1, j, arr => inner_loop n (j + 1) (swap_if_greater arr j)

/-- Outer loop (line 253), with `n` iterations left and `i` the current index. -/
def outer_loop : Nat → Nat → Nat → List CStr → List CStr
  | 0, _, _, arr => arr
  | n + 1, i, size, arr => outer_loop n (i + 1) size (inner_loop (size - i - 1) 0 arr)

/-- Function `sort_lexicographically(arr, size)`. -/
def sort_lexicographically (arr : List CStr) (size : Nat) : List CStr :=
  outer_loop (size - 1) 0 size arr

/-- One pass of adjacent exchanges over `x :: l`, as a function on lists (used to
describe `inner_loop`). -/
def bubble : CStr → List CStr → List CStr
  | x, [] => [x]
  | x, y :: ys => if strcmp x y > 0 then y :: bubble x ys else x :: bubble y ys

/-! ## `print_file_info` (lines 169-249) -/

/-- Lines 191-215: the ten characters stored in `file_mode`. -/
def file_mode (st_mode : Nat) : CStr :=
  [ if st_mode &&& S_IFMT = S_IFREG then '-'
    else if st_mode &&& S_IFMT = S_IFDIR then 'd'
    else if st_mode &&& S_IFMT = S_IFLNK then 'l'
    else '?',
    if st_mode &&& S_IRUSR ≠ 0 then 'r' else '-',
    if st_mode &&& S_IWUSR ≠ 0 then 'w' else '-',
    if st_mode &&& S_IXUSR ≠ 0 then 'x' else '-',
    if st_mode &&& S_IRGRP ≠ 0 then 'r' else '-',
    if st_mode &&& S_IWGRP ≠ 0 then 'w' else '-',
    if st_mode &&& S_IXGRP ≠ 0 then 'x' else '-',
    if st_mode &&& S_IROTH ≠ 0 then 'r' else '-',
    if st_mode &&& S_IWOTH ≠ 0 then 'w' else '-',
    if st_mode &&& S_IXOTH ≠ 0 then 'x' else '-' ]

/-- Line 217: the bytes of `printf("%-11s ", file_mode)` before the separating
space. -/
def mode_field (st_mode : Nat) : CStr := pad_right 11 (file_mode st_mode)

/-- Lines 176-179: the test that suppresses a line. -/
def is_suppressed (path : CStr) : Bool :=
  match strrchr path '/' with
  | some temp_name => temp_name[1]? == some '.'
  | none => false

/-- Lines 225-230 and 242-247: the name that is printed. -/
def printed_name (path : CStr) : CStr :=
  match strrchr path '/' with
  | some filename => filename.drop 1
  | none => path

/-- Lines 231-239: the link target that is printed. -/
def link_target (fs : FileSystem) (path : CStr) (st : Stat) : Option CStr :=
  if S_ISLNK st.st_mode then
    match fs.readlink path with
    | some target => some (target.take (MAX_PATH_LENGTH - 1))
    | none => none
  else none

/-- Function `print_file_info(path, show_index, show_details)`. -/
def print_file_info (env : Env) (fs : FileSystem) (path : CStr)
    (show_index show_details : Bool) : Except Fault (List Event) :=
  match fs.lstat path with
  | none => .ok [Event.perror]
  | some st =>
    if is_suppressed path then .ok []
    else
      let index := if show_index then some st.st_ino else none
      if show_details then
        match env.getpwuid st.st_uid, env.getgrgid st.st_gid,
            env.strftime_localtime st.st_mtime with
        | some pw_name, some gr_name, some date =>
          .ok [Event.entry index
            (some { file_mode := file_mode st.st_mode, st_nlink := to_long st.st_nlink,
                    pw_name := pw_name, gr_name := gr_name, st_size := to_long st.st_size,
                    date := date, target := link_target fs path st })
            (printed_name path)]
        | _, _, _ => .error Fault.null_dereference
      else .ok [Event.entry index none (printed_name path)]

/-! ## `list_directory` (lines 74-165) -/

/-- Local state of the reading loop. -/
structure Scan where
  /-- Events so far (one `perror` per failed `lstat`). -/
  errors : List Event
  entries : List CStr
  subdirectories : List CStr

/-- Lines 96-119, over the names `readdir` returns. -/
def read_loop (fs : FileSystem) (path : CStr) : List CStr → Scan → Except Fault Scan
  | [], s => .ok s
  | d_name :: rest, s =>
    if strcmp d_name (cstr ".") ≠ 0 ∧ strcmp d_name (cstr "..") ≠ 0 then
      match fs.lstat (snprintf_path path d_name) with
      | none => read_loop fs path rest { s with errors := s.errors ++ [Event.perror] }
      | some st =>
        if S_ISDIR st.st_mode then
          if s.subdirectories.length < MAX_ENTRIES ∧ s.entries.length < MAX_ENTRIES then
            read_loop fs path rest
              { s with subdirectories := s.subdirectories ++ [d_name],
                       entries := s.entries ++ [d_name] }
          else .error Fault.buffer_overflow
        else
          if s.entries.length < MAX_ENTRIES then
            read_loop fs path rest { s with entries := s.entries ++ [d_name] }
          else .error Fault.buffer_overflow
    else read_loop fs path rest s

/-- Lines 128-145, over the sorted entries; returns the trace and
`is_main_directory` after the loop. -/
def print_loop (env : Env) (fs : FileSystem) (path : CStr) (show_index show_details : Bool) :
    List CStr → Bool → Except Fault (List Event × Bool)
  | [], is_main_directory => .ok ([], is_main_directory)
  | name :: rest, is_main_directory =>
    let head := if is_main_directory then [Event.header path] else []
    let full_path := snprintf_path path name
    match fs.lstat full_path with
    | none =>
      match print_loop env fs path show_index show_details rest false with
      | .ok (trace, flag) => .ok (head ++ Event.perror :: trace, flag)
      | .error f => .error f
    | some _ =>
      match print_file_info env fs full_path show_index show_details with
      | .ok line =>
        match print_loop env fs path show_index show_details rest false with
        | .ok (trace, flag) => .ok (head ++ line ++ trace, flag)
        | .error f => .error f
      | .error f => .error f

/-- Lines 148-164, over the sorted subdirectories; `recurse` is the recursive
call of line 161. Returns the trace and whether `finished` was set. -/
def subdir_loop (recurse : CStr → Except Fault (List Event × Bool)) (path : CStr)
    (is_recursive : Bool) : List CStr → Bool → Except Fault (List Event × Bool)
  | [], _ => .ok ([], false)
  | name :: rest, is_main_directory =>
    let head := if is_main_directory then [Event.header path] else []
    let subdirectory_path := snprintf_path path name
    if is_recursive then
      match recurse subdirectory_path with
      | .ok (sub, fin) =>
        match subdir_loop recurse path is_recursive rest false with
        | .ok (trace, fin') => .ok (head ++ Event.newline :: sub ++ trace, fin || fin')
        | .error f => .error f
      | .error f => .error f
    else
      match subdir_loop recurse path is_recursive rest false with
      | .ok (trace, fin') => .ok (head ++ trace, fin')
      | .error f => .error f

/-- Function `list_directory(path, is_recursive, show_index, show_details)`, with
a bound `fuel` on the depth of the recursion. Returns the trace and whether
`finished` was set. -/
def list_directory (env : Env) (fs : FileSystem) :
    Nat → CStr → Bool → Bool → Bool → Except Fault (List Event × Bool)
  | 0, _, _, _, _ => .error Fault.out_of_fuel
  | fuel + 1, path, is_recursive, show_index, show_details =>
    match fs.opendir path with
    | none =>
      if fs.access path = false then .ok ([Event.call path, Event.nonexistent], true)
      else
        match print_file_info env fs path show_index show_details with
        | .ok line => .ok (Event.call path :: line, false)
        | .error f => .error f
    | some d_names =>
      match read_loop fs path d_names ⟨[], [], []⟩ with
      | .error f => .error f
      | .ok scan =>
        let entries := sort_lexicographically scan.entries scan.entries.length
        let subdirectories :=
          sort_lexicographically scan.subdirectories scan.subdirectories.length
        match print_loop env fs path show_index show_details entries true with
        | .error f => .error f
        | .ok (printed, is_main_directory) =>
          match subdir_loop
              (fun p => list_directory env fs fuel p is_recursive show_index show_details)
              path is_recursive subdirectories is_main_directory with
          | .error f => .error f
          | .ok (below, fin) =>
            .ok (Event.call path :: scan.errors ++ printed ++ below, fin)

/-! ## `main` (lines 25-70) -/

/-- The three flags of lines 27-29. -/
structure Options where
  show_index : Bool := false
  show_details : Bool := false
  is_recursive : Bool := false
deriving DecidableEq

/-- Lines 34-49 over the characters after the leading `-`; `none` at an
unsupported character. -/
def parse_flag_chars : CStr → Options → Option Options
  | [], o => some o
  | c :: cs, o =>
    if c = 'i' then parse_flag_chars cs { o with show_index := true }
    else if c = 'l' then parse_flag_chars cs { o with show_details := true }
    else if c = 'R' then parse_flag_chars cs { o with is_recursive := true }
    else none

/-- Lines 32-54 over `argv[1..]`: the options and the tokens from
`path_start_index` on; `none` at an unsupported option. -/
def parse_args : List CStr → Options → Option (Options × List CStr)
  | [], o => some (o, [])
  | arg :: rest, o =>
    if arg.head? = some '-' then
      match parse_flag_chars (arg.drop 1) o with
      | some o' => parse_args rest o'
      | none => none
    else some (o, arg :: rest)

/-- Lines 61-67: the trace and the exit status. -/
def list_paths (env : Env) (fs : FileSystem) (fuel : Nat) (o : Options) :
    List CStr → Except Fault (List Event × Int)
  | [] => .ok ([], 0)
  | path :: rest =>
    match list_directory env fs fuel path o.is_recursive o.show_index o.show_details with
    | .error f => .error f
    | .ok (listing, finished) =>
      if finished then .ok (listing, 1)
      else
        match list_paths env fs fuel o rest with
        | .ok (trace, status) => .ok (listing ++ Event.newline :: trace, status)
        | .error f => .error f

/-- Function `main(argc, argv)`: the trace and the exit status. -/
def main (env : Env) (fs : FileSystem) (fuel : Nat) (argv : List CStr) :
    Except Fault (List Event × Int) :=
  match parse_args (argv.drop 1) {} with
  | none => .ok ([Event.unsupported_option], 1)
  | some (o, []) =>
    match list_directory env fs fuel (cstr ".") o.is_recursive o.show_index o.show_details with
    | .ok (listing, _) => .ok (listing, 0)
    | .error f => .error f
  | some (o, path :: rest) => list_paths env fs fuel o (path :: rest)

/-! ## A small host used by the examples -/

def regular_file : Stat :=
  { st_mode := 0o100644, st_ino := 11, st_nlink := 1, st_uid := 0, st_gid := 0,
    st_size := 5, st_mtime := 0 }

def directory : Stat :=
  { st_mode := 0o040755, st_ino := 12, st_nlink := 2, st_uid := 0, st_gid := 0,
    st_size := 4096, st_mtime := 0 }

def example_env : Env where
  getpwuid uid := if uid = 0 then some (cstr "root") else none
  getgrgid gid := if gid = 0 then some (cstr "root") else none
  strftime_localtime _ := some (cstr "Jan 01 1970 00:00")

/-- The directory `/tmp/x` of the scenario: files `b.txt` and `a.txt`, and the
empty subdirectory `sub`. -/
def scenario_fs : FileSystem where
  opendir p :=
    if p = cstr "/tmp/x" then some [cstr ".", cstr "..", cstr "b.txt", cstr "a.txt", cstr "sub"]
    else if p = cstr "/tmp/x/sub" then some [cstr ".", cstr ".."]
    else none
  access p := p = cstr "/tmp/x" ∨ p = cstr "/tmp/x/sub" ∨ p = cstr "/tmp/x/a.txt" ∨
    p = cstr "/tmp/x/b.txt"
  lstat p :=
    if p = cstr "/tmp/x" ∨ p = cstr "/tmp/x/sub" then some directory
    else if p = cstr "/tmp/x/a.txt" ∨ p = cstr "/tmp/x/b.txt" then some regular_file
    else none
  readlink _ := none


/-! ## Vocabulary of the specification -/

/-- Final path segment: the bytes after the last `/` (the whole path when there
is none). -/
def final_segment (path : CStr) : CStr :=
  (path.reverse.takeWhile (fun c => c ≠ '/')).reverse

/-- Whether a command-line token starts with `-`. -/
def is_flag_token (arg : CStr) : Bool := arg.head? == some '-'

/-- The flag tokens before the first token that does not start with `-`. -/
def leading_flags (args : List CStr) : List CStr := args.takeWhile is_flag_token

/-- The tokens from the first one that does not start with `-` on. -/
def path_tokens (args : List CStr) : List CStr := args.dropWhile is_flag_token

/-- A host with the regular files `.hidden` and `dir/.hidden`. -/
def hidden_fs : FileSystem where
  opendir _ := none
  access p := p = cstr ".hidden" ∨ p = cstr "dir/.hidden"
  lstat p := if p = cstr ".hidden" ∨ p = cstr "dir/.hidden" then some regular_file else none
  readlink _ := none

/-- Line 97: whether the reading loop looks at a name. -/
def not_dot (name : CStr) : Bool :=
  strcmp name (cstr ".") ≠ 0 ∧ strcmp name (cstr "..") ≠ 0

/-- Whether `lstat` reports a directory at `path`. -/
def is_directory (fs : FileSystem) (path : CStr) : Bool :=
  match fs.lstat path with
  | some st => S_ISDIR st.st_mode
  | none => false

/-- The names the reading loop stores in `entries`, in `readdir` order. -/
def stored_entries (fs : FileSystem) (path : CStr) (names : List CStr) : List CStr :=
  names.filter fun n => not_dot n && (fs.lstat (snprintf_path path n)).isSome

/-- The names the reading loop stores in `subdirectories`, in `readdir` order. -/
def stored_subdirectories (fs : FileSystem) (path : CStr) (names : List CStr) : List CStr :=
  names.filter fun n => not_dot n && is_directory fs (snprintf_path path n)

/-- A path exists: it opens as a directory or `access(path, F_OK)` succeeds. -/
def path_exists (fs : FileSystem) (path : CStr) : Bool :=
  (fs.opendir path).isSome || fs.access path

/-- POSIX path resolution: a path at which `lstat` reports a directory exists. -/
def FileSystem.consistent (fs : FileSystem) : Prop :=
  ∀ path, is_directory fs path = true → path_exists fs path = true

/-- The listing of a path: the trace of `list_directory` when it returns. -/
def listing (env : Env) (fs : FileSystem) (fuel : Nat) (o : Options) (path : CStr) :
    List Event :=
  match list_directory env fs fuel path o.is_recursive o.show_index o.show_details with
  | .ok (trace, _) => trace
  | .error _ => []

/-- One `perror` event for each name whose `lstat` fails in the reading loop. -/
def read_errors (fs : FileSystem) (path : CStr) (names : List CStr) : List Event :=
  (names.filter fun n => not_dot n && (fs.lstat (snprintf_path path n)).isNone).map
    fun _ => Event.perror

/-- The three lookups of a long-format line succeed for this metadata. -/
def resolves (env : Env) (st : Stat) : Bool :=
  (env.getpwuid st.st_uid).isSome && (env.getgrgid st.st_gid).isSome &&
    (env.strftime_localtime st.st_mtime).isSome

/-- An event is an entry line. -/
def Event.is_entry : Event → Bool
  | .entry _ _ _ => true
  | _ => false

/-- A hidden name: one that begins with `.`. -/
def is_hidden (name : CStr) : Bool := name.head? == some '.'

/-- The lookups of a long-format line succeed for the metadata at `path`, if any. -/
def entry_resolves (env : Env) (fs : FileSystem) (path : CStr) : Bool :=
  match fs.lstat path with
  | some st => resolves env st
  | none => true

/-! ## Directory trees -/

/-- Content of a directory: its entries other than `.` and `..`, in the order
`readdir` returns them. A directory entry carries its own content. -/
inductive Entries where
  | nil : Entries
  /-- An entry that is not a directory, with its metadata. -/
  | file (name : CStr) (st : Stat) (rest : Entries) : Entries
  /-- A subdirectory, with its metadata and its content. -/
  | dir (name : CStr) (st : Stat) (sub : Entries) (rest : Entries) : Entries

/-- Names of the entries. -/
def Entries.names : Entries → List CStr
  | .nil => []
  | .file name _ rest => name :: rest.names
  | .dir name _ _ rest => name :: rest.names

/-- The subdirectories with their content. -/
def Entries.subdirs : Entries → List (CStr × Entries)
  | .nil => []
  | .file _ _ rest => rest.subdirs
  | .dir name _ sub rest => (name, sub) :: rest.subdirs

mutual
/-- Depth-first visit of the tree `es` at `path`: the entry into the directory, its
header if it has an entry, then the visits of its subdirectories, each exactly once,
in `strcmp` order of their names. -/
inductive DepthFirst : CStr → Entries → List Event → Prop
  | visit (path : CStr) (es : Entries) (order : List (CStr × Entries)) (below : List Event) :
      order.Perm es.subdirs →
      order.Pairwise (fun a b => strcmp a.1 b.1 ≤ 0) →
      DepthFirstEach path order below →
      DepthFirst path es
        (Event.call path :: (if es.names.isEmpty then [] else [Event.header path]) ++ below)
/-- The depth-first visits of the listed subdirectories of `path`, one after the
other in the order of the list. -/
inductive DepthFirstEach : CStr → List (CStr × Entries) → List Event → Prop
  | nil (path : CStr) : DepthFirstEach path [] []
  | cons (path : CStr) (name : CStr) (sub : Entries) (rest : List (CStr × Entries))
      (first others : List Event) :
      DepthFirst (path ++ '/' :: name) sub first →
      DepthFirstEach path rest others →
      DepthFirstEach path ((name, sub) :: rest) (first ++ others)
end

/-- A host with the directory `r`: subdirectory `b` (holding the file `f`), file
`c`, empty subdirectory `a`. -/
def tree_fs : FileSystem where
  opendir p :=
    if p = cstr "r" then some [cstr ".", cstr "..", cstr "b", cstr "c", cstr "a"]
    else if p = cstr "r/a" then some [cstr ".", cstr ".."]
    else if p = cstr "r/b" then some [cstr ".", cstr "f", cstr ".."]
    else none
  access p := p = cstr "r" ∨ p = cstr "r/a" ∨ p = cstr "r/b" ∨ p = cstr "r/c" ∨
    p = cstr "r/b/f"
  lstat p :=
    if p = cstr "r" ∨ p = cstr "r/a" ∨ p = cstr "r/b" then some directory
    else if p = cstr "r/c" ∨ p = cstr "r/b/f" then some regular_file
    else none
  readlink _ := none

/-- What `readdir` returns for `r` in `tree_fs`. -/
def tree_names : List CStr :=
  [cstr ".", cstr "..", cstr "b", cstr "c", cstr "a"]

/-- What `readdir` returns for `/tmp/x` in `scenario_fs`. -/
def scenario_names : List CStr :=
  [cstr ".", cstr "..", cstr "b.txt", cstr "a.txt", cstr "sub"]

/-- The host `scenario_fs` with one more file, `inner`, in `/tmp/x/sub`. -/
def scenario_fs_deep : FileSystem where
  opendir p :=
    if p = cstr "/tmp/x" then some [cstr ".", cstr "..", cstr "b.txt", cstr "a.txt", cstr "sub"]
    else if p = cstr "/tmp/x/sub" then some [cstr ".", cstr "..", cstr "inner"]
    else none
  access p := p = cstr "/tmp/x" ∨ p = cstr "/tmp/x/sub" ∨ p = cstr "/tmp/x/a.txt" ∨
    p = cstr "/tmp/x/b.txt" ∨ p = cstr "/tmp/x/sub/inner"
  lstat p :=
    if p = cstr "/tmp/x" ∨ p = cstr "/tmp/x/sub" then some directory
    else if p = cstr "/tmp/x/a.txt" ∨ p = cstr "/tmp/x/b.txt" ∨ p = cstr "/tmp/x/sub/inner" then
      some regular_file
    else none
  readlink _ := none

/-- The content of `/tmp/x` in `scenario_fs`. -/
def scenario_tree : Entries :=
  .file (cstr "b.txt") regular_file
    (.file (cstr "a.txt") regular_file (.dir (cstr "sub") directory .nil .nil))

/-- The command line `myls -il -R /tmp/x -i`. -/
def example_argv : List CStr :=
  [cstr "myls", cstr "-il", cstr "-R", cstr "/tmp/x", cstr "-i"]

/-- A path component of 254 bytes. -/
def long_component : CStr := List.replicate 254 'd'

/-- A directory path of 1020 bytes: three components of 254 bytes and one of 255. -/
def long_parent : CStr :=
  long_component ++ '/' :: long_component ++ '/' :: long_component ++ '/' :: 'd' ::
    long_component

/-- A host where the directory `long_parent` holds the regular files `he` and
`hello`. -/
def long_parent_fs : FileSystem where
  opendir p :=
    if p = long_parent then some [cstr ".", cstr "..", cstr "he", cstr "hello"] else none
  access p := p = long_parent ∨ p = long_parent ++ cstr "/he" ∨ p = long_parent ++ cstr "/hello"
  lstat p :=
    if p = long_parent ++ cstr "/he" ∨ p = long_parent ++ cstr "/hello" then some regular_file
    else none
  readlink _ := none

/-- A directory path of 1024 bytes: four components of 254 bytes and `abcd`. -/
def long_dir : CStr :=
  long_component ++ '/' :: long_component ++ '/' :: long_component ++ '/' :: long_component ++
    '/' :: cstr "abcd"

/-- The sibling `abc` of `long_dir`: its first 1023 bytes. -/
def long_dir_sibling : CStr :=
  long_component ++ '/' :: long_component ++ '/' :: long_component ++ '/' :: long_component ++
    '/' :: cstr "abc"

/-- A host where the directory `long_dir` holds the regular file `x`. -/
def long_dir_fs : FileSystem where
  opendir p := if p = long_dir then some [cstr ".", cstr "..", cstr "x"] else none
  access p := p = long_dir ∨ p = long_dir ++ cstr "/x"
  lstat p := if p = long_dir ++ cstr "/x" then some regular_file else none
  readlink _ := none

/-- The host `long_dir_fs` with one more regular file, the sibling `abc` of
`long_dir`. -/
def long_dir_fs_sibling : FileSystem where
  opendir p := if p = long_dir then some [cstr ".", cstr "..", cstr "x"] else none
  access p := p = long_dir ∨ p = long_dir ++ cstr "/x" ∨ p = long_dir_sibling
  lstat p :=
    if p = long_dir ++ cstr "/x" ∨ p = long_dir_sibling then some regular_file else none
  readlink _ := none

/-! ## Order of `strcmp` -/

theorem toNat_ne_of_ne {a b : Char} (h : a ≠ b) : a.toNat ≠ b.toNat := by
  intro h'
  apply h
  exact Char.ext (UInt32.ext h')

theorem strcmp_total (a b : CStr) : strcmp a b ≤ 0 ∨ strcmp b a ≤ 0 := by
  induction a generalizing b with
  | nil => cases b with
    | nil => simp [strcmp]
    | cons y ys => left; simp [strcmp]
  | cons x xs ih => cases b with
    | nil => right; simp [strcmp]
    | cons y ys =>
      by_cases h : x = y
      · subst h
        by_cases h0 : x.toNat = 0
        · simp [strcmp, h0]
        · simpa [strcmp, h0] using ih ys
      · have h' : ¬ y = x := fun e => h e.symm
        simp only [strcmp, ne_eq, h, h', not_false_eq_true, if_true]
        omega

theorem strcmp_trans (a b c : CStr) (hab : strcmp a b ≤ 0) (hbc : strcmp b c ≤ 0) :
    strcmp a c ≤ 0 := by
  induction a generalizing b c with
  | nil => cases c with
    | nil => simp [strcmp]
    | cons z zs => simp [strcmp]
  | cons x xs ih =>
    cases b with
    | nil =>
      cases c with
      | nil => simpa [strcmp] using hab
      | cons z zs =>
        simp only [strcmp] at hab hbc ⊢
        by_cases h : x = z
        · subst h
          have : x.toNat = 0 := by omega
          simp [this]
        · have := toNat_ne_of_ne h
          simp only [ne_eq, h, not_false_eq_true, if_true]
          omega
    | cons y ys =>
      cases c with
      | nil =>
        simp only [strcmp] at hab hbc ⊢
        by_cases h : x = y
        · subst h
          omega
        · have := toNat_ne_of_ne h
          simp only [ne_eq, h, not_false_eq_true, if_true] at hab
          omega
      | cons z zs =>
        simp only [strcmp] at hab hbc ⊢
        by_cases hxy : x = y
        · subst hxy
          by_cases hxz : x = z
          · subst hxz
            by_cases h0 : x.toNat = 0
            · simp [h0]
            · simp only [ne_eq, not_true_eq_false, if_false, h0] at hab hbc ⊢
              exact ih ys zs hab hbc
          · simp only [ne_eq, hxz, not_false_eq_true, if_true] at hbc ⊢
            exact hbc
        · have h1 := toNat_ne_of_ne hxy
          simp only [ne_eq, hxy, not_false_eq_true, if_true] at hab
          by_cases hyz : y = z
          · subst hyz
            simp only [ne_eq, hxy, not_false_eq_true, if_true]
            exact hab
          · have h2 := toNat_ne_of_ne hyz
            simp only [ne_eq, hyz, not_false_eq_true, if_true] at hbc
            by_cases hxz : x = z
            · subst hxz; omega
            · simp only [ne_eq, hxz, not_false_eq_true, if_true]
              omega

theorem strcmp_self (a : CStr) : strcmp a a = 0 := by
  induction a with
  | nil => rfl
  | cons x xs ih => by_cases h0 : x.toNat = 0 <;> simp [strcmp, h0, ih]

theorem swap_if_greater_append (pre : List CStr) (x y : CStr) (rest : List CStr) :
    swap_if_greater (pre ++ x :: y :: rest) pre.length =
      pre ++ (if strcmp x y > 0 then y :: x :: rest else x :: y :: rest) := by
  have h1 : (pre ++ x :: y :: rest)[pre.length]? = some x := by
    rw [List.getElem?_append_right (le_refl _)]; simp
  have h2 : (pre ++ x :: y :: rest)[pre.length + 1]? = some y := by
    rw [List.getElem?_append_right (by omega)]; simp
  simp only [swap_if_greater, h1, h2]
  split
  · simp [List.set_append]
  · rfl

theorem inner_loop_eq (mid : List CStr) : ∀ (pre : List CStr) (x : CStr) (suf : List CStr),
    inner_loop mid.length pre.length (pre ++ x :: (mid ++ suf)) = pre ++ (bubble x mid ++ suf) := by
  induction mid with
  | nil => intro pre x suf; simp [inner_loop, bubble]
  | cons y ys ih =>
    intro pre x suf
    simp only [List.length_cons, inner_loop, List.cons_append, swap_if_greater_append, bubble]
    split
    · have := ih (pre ++ [y]) x suf
      simp only [List.length_append, List.length_singleton, List.append_assoc,
        List.singleton_append] at this
      simpa using this
    · have := ih (pre ++ [x]) y suf
      simp only [List.length_append, List.length_singleton, List.append_assoc,
        List.singleton_append] at this
      simpa using this

theorem bubble_perm (l : List CStr) : ∀ x, (bubble x l).Perm (x :: l) := by
  induction l with
  | nil => intro x; simp [bubble]
  | cons y ys ih =>
    intro x
    simp only [bubble]
    split
    · exact ((ih x).cons y).trans (List.Perm.swap x y ys)
    · exact (ih y).cons x

theorem bubble_last (l : List CStr) : ∀ x, ∃ init m, bubble x l = init ++ [m] ∧
    ∀ a ∈ x :: l, strcmp a m ≤ 0 := by
  induction l with
  | nil => intro x; exact ⟨[], x, by simp [bubble], by simp [strcmp_self]⟩
  | cons y ys ih =>
    intro x
    simp only [bubble]
    split
    · rename_i hgt
      obtain ⟨init, m, he, hm⟩ := ih x
      refine ⟨y :: init, m, by simp [he], ?_⟩
      intro a ha
      have hyx : strcmp y x ≤ 0 := by
        rcases strcmp_total x y with h | h
        · omega
        · exact h
      simp only [List.mem_cons] at ha
      rcases ha with rfl | rfl | ha
      · exact hm _ (by simp)
      · exact strcmp_trans _ _ _ hyx (hm _ (by simp))
      · exact hm _ (by simp [ha])
    · rename_i hgt
      obtain ⟨init, m, he, hm⟩ := ih y
      refine ⟨x :: init, m, by simp [he], ?_⟩
      intro a ha
      simp only [List.mem_cons] at ha
      rcases ha with rfl | rfl | ha
      · exact strcmp_trans a y m (by omega) (hm y (by simp))
      · exact hm _ (by simp)
      · exact hm _ (by simp [ha])

theorem outer_loop_spec (n : Nat) : ∀ (unsorted sorted : List CStr),
    unsorted.length = n + 1 →
    sorted.Pairwise (fun a b => strcmp a b ≤ 0) →
    (∀ a ∈ unsorted, ∀ b ∈ sorted, strcmp a b ≤ 0) →
    (outer_loop n sorted.length (unsorted ++ sorted).length (unsorted ++ sorted)).Perm
        (unsorted ++ sorted) ∧
      (outer_loop n sorted.length (unsorted ++ sorted).length (unsorted ++ sorted)).Pairwise
        (fun a b => strcmp a b ≤ 0) := by
  induction n with
  | zero =>
    intro unsorted sorted hlen hs hle
    match unsorted, hlen with
    | [x], _ =>
      simp only [outer_loop]
      refine ⟨List.Perm.refl _, ?_⟩
      simp only [List.singleton_append, List.pairwise_cons]
      exact ⟨fun b hb => hle x (by simp) b hb, hs⟩
  | succ n ih =>
    intro unsorted sorted hlen hs hle
    match unsorted, hlen with
    | x :: mid, hlen =>
      have hmid : mid.length = n + 1 := by simpa using hlen
      have hb : (x :: mid ++ sorted).length - sorted.length - 1 = mid.length := by
        simp; omega
      simp only [outer_loop, hb]
      have hin := inner_loop_eq mid [] x sorted
      simp only [List.length_nil, List.nil_append] at hin
      rw [List.cons_append, hin]
      obtain ⟨init, m, he, hm⟩ := bubble_last mid x
      have hperm := bubble_perm mid x
      rw [he] at hperm ⊢
      have hinit : init.length = n + 1 := by
        have := hperm.length_eq
        simp at this; omega
      have hmem : ∀ a, a ∈ init ++ [m] → a ∈ x :: mid := fun a ha => hperm.subset ha
      have hs' : (m :: sorted).Pairwise (fun a b => strcmp a b ≤ 0) := by
        simp only [List.pairwise_cons]
        exact ⟨fun b hb => hle m (hmem m (by simp)) b hb, hs⟩
      have hle' : ∀ a ∈ init, ∀ b ∈ m :: sorted, strcmp a b ≤ 0 := by
        intro a ha b hb
        simp only [List.mem_cons] at hb
        rcases hb with rfl | hb
        · exact hm a (hmem a (by simp [ha]))
        · exact hle a (hmem a (by simp [ha])) b hb
      have key := ih init (m :: sorted) hinit hs' hle'
      have e1 : init ++ [m] ++ sorted = init ++ m :: sorted := by simp
      have e2 : (x :: (mid ++ sorted)).length = (init ++ m :: sorted).length := by
        simp [hinit, hmid]; omega
      have e3 : sorted.length + 1 = (m :: sorted).length := by simp
      rw [e1, e2, e3]
      refine ⟨key.1.trans ?_, key.2⟩
      rw [← e1]
      exact (hperm.append_right sorted)

theorem sort_spec (arr : List CStr) :
    (sort_lexicographically arr arr.length).Pairwise (fun a b => strcmp a b ≤ 0) ∧
    (sort_lexicographically arr arr.length).Perm arr := by
  cases arr with
  | nil => simp [sort_lexicographically, outer_loop]
  | cons x xs =>
    have := outer_loop_spec xs.length (x :: xs) [] (by simp) List.Pairwise.nil (by simp)
    simp only [List.append_nil, List.length_nil] at this
    simp only [sort_lexicographically, List.length_cons, Nat.add_sub_cancel]
    exact ⟨this.2, this.1⟩

/-- C1: for every array of names (the empty one and ones with duplicates included),
`sort_lexicographically` leaves the array in non-decreasing `strcmp` order, and the
result is a permutation of the input: same multiset of names, same length. -/
theorem sort_lexicographically_sorted_perm (arr : List CStr) :
    (sort_lexicographically arr arr.length).Pairwise (fun a b => strcmp a b ≤ 0) ∧
    (sort_lexicographically arr arr.length).Perm arr ∧
    (sort_lexicographically arr arr.length).length = arr.length :=
  ⟨(sort_spec arr).1, (sort_spec arr).2, (sort_spec arr).2.length_eq⟩

theorem lex_cons_cons (m n : Nat) (l₁ l₂ : List Nat) :
    List.Lex (fun m n : Nat => m < n) (m :: l₁) (n :: l₂) ↔
      m < n ∨ (m = n ∧ List.Lex (fun m n : Nat => m < n) l₁ l₂) := by
  constructor
  · intro h
    cases h with
    | cons h => exact Or.inr ⟨rfl, h⟩
    | rel h => exact Or.inl h
  · intro h
    rcases h with h | ⟨rfl, h⟩
    · exact List.Lex.rel h
    · exact List.Lex.cons h

/-- On strings without a NUL byte, `strcmp a b ≤ 0` says that `b` is not below `a`
in the lexicographic order of the byte values. -/
theorem strcmp_le_iff_not_lex (a : CStr) : ∀ b : CStr,
    (∀ c ∈ a, c.toNat ≠ 0) → (∀ c ∈ b, c.toNat ≠ 0) →
    (strcmp a b ≤ 0 ↔
      ¬ List.Lex (fun m n : Nat => m < n) (b.map Char.toNat) (a.map Char.toNat)) := by
  induction a with
  | nil =>
    intro b _ _
    cases b with
    | nil =>
      simp only [strcmp, List.map_nil, le_refl, true_iff]
      intro h; cases h
    | cons y ys =>
      simp only [strcmp, List.map_nil, List.map_cons]
      constructor
      · intro _ h; cases h
      · intro _; omega
  | cons x xs ih =>
    intro b ha hb
    have hx : x.toNat ≠ 0 := ha x (by simp)
    cases b with
    | nil =>
      simp only [strcmp, List.map_nil, List.map_cons]
      constructor
      · intro h; omega
      · intro h; exact absurd List.Lex.nil h
    | cons y ys =>
      have ih' := ih ys (fun c hc => ha c (by simp [hc])) (fun c hc => hb c (by simp [hc]))
      simp only [strcmp, List.map_cons, lex_cons_cons]
      by_cases hxy : x = y
      · subst hxy
        simp only [ne_eq, not_true_eq_false, if_false, hx]
        rw [ih']
        simp
      · have hne := toNat_ne_of_ne hxy
        simp only [ne_eq, hxy, not_false_eq_true, if_true]
        constructor
        · intro h hl
          rcases hl with hl | ⟨hl, _⟩
          · omega
          · exact hne hl.symm
        · intro h
          by_contra hc
          apply h
          exact Or.inl (by omega)

/-! ## The mode field -/

theorem land_two_pow_ne_zero (m k : Nat) : m &&& 2 ^ k ≠ 0 ↔ m.testBit k = true := by
  constructor
  · intro h
    by_contra hb
    apply h
    apply Nat.eq_of_testBit_eq
    intro i
    simp only [Nat.testBit_and, Nat.testBit_two_pow, Nat.zero_testBit]
    by_cases hki : k = i
    · subst hki; simp [hb]
    · simp [hki]
  · intro hb h
    have : (m &&& 2 ^ k).testBit k = true := by
      simp [Nat.testBit_and, Nat.testBit_two_pow, hb]
    rw [h] at this
    simp at this

theorem file_mode_mask (m : Nat) : file_mode (m &&& (S_IFMT ||| 0o777)) = file_mode m := by
  have e : ∀ k : Nat, (S_IFMT ||| 0o777) &&& k = k → (m &&& (S_IFMT ||| 0o777)) &&& k = m &&& k := by
    intro k hk
    rw [Nat.and_assoc, hk]
  simp only [file_mode]
  rw [e S_IFMT (by decide), e S_IRUSR (by decide), e S_IWUSR (by decide), e S_IXUSR (by decide),
    e S_IRGRP (by decide), e S_IWGRP (by decide), e S_IXGRP (by decide), e S_IROTH (by decide),
    e S_IWOTH (by decide), e S_IXOTH (by decide)]

/-- C10: for every `st_mode`, the mode field of a long-format line has 11
characters: position 0 is the type glyph (`-` regular file, `d` directory, `l`
symbolic link, `?` any other type), positions 1 to 9 are `rwxrwxrwx` with `-` where
the permission bit (bits 8 down to 0) is clear, position 10 is the padding space; the
field is the same for two modes that differ only outside the type mask and the nine
permission bits; and it is the first 11 bytes of what is printed for the details. -/
theorem mode_field_spec (m : Nat) :
    (mode_field m).length = 11 ∧
    (mode_field m)[0]? = some
      (if m &&& S_IFMT = S_IFREG then '-' else if m &&& S_IFMT = S_IFDIR then 'd'
       else if m &&& S_IFMT = S_IFLNK then 'l' else '?') ∧
    (mode_field m)[1]? = some (if m.testBit 8 then 'r' else '-') ∧
    (mode_field m)[2]? = some (if m.testBit 7 then 'w' else '-') ∧
    (mode_field m)[3]? = some (if m.testBit 6 then 'x' else '-') ∧
    (mode_field m)[4]? = some (if m.testBit 5 then 'r' else '-') ∧
    (mode_field m)[5]? = some (if m.testBit 4 then 'w' else '-') ∧
    (mode_field m)[6]? = some (if m.testBit 3 then 'x' else '-') ∧
    (mode_field m)[7]? = some (if m.testBit 2 then 'r' else '-') ∧
    (mode_field m)[8]? = some (if m.testBit 1 then 'w' else '-') ∧
    (mode_field m)[9]? = some (if m.testBit 0 then 'x' else '-') ∧
    (mode_field m)[10]? = some ' ' ∧
    mode_field (m &&& (S_IFMT ||| 0o777)) = mode_field m ∧
    mode_field (m ||| 0o7000) = mode_field m ∧
    ∀ d : Details, ({ d with file_mode := file_mode m } : Details).render.take 11 = mode_field m := by
  have b : ∀ (k : Nat) (c : Char), (if m &&& 2 ^ k ≠ 0 then c else '-') =
      (if m.testBit k = true then c else '-') := by
    intro k c
    by_cases h : m.testBit k = true
    · rw [if_pos ((land_two_pow_ne_zero m k).2 h), if_pos h]
    · rw [if_neg (fun h' => h ((land_two_pow_ne_zero m k).1 h')), if_neg h]
  have e8 := b 8 'r'
  have e7 := b 7 'w'
  have e6 := b 6 'x'
  have e5 := b 5 'r'
  have e4 := b 4 'w'
  have e3 := b 3 'x'
  have e2 := b 2 'r'
  have e1 := b 1 'w'
  have hl : (file_mode m).length = 10 := rfl
  have hor : mode_field (m ||| 0o7000) = mode_field m := by
    have h1 := file_mode_mask (m ||| 0o7000)
    have h2 := file_mode_mask m
    have h3 : (m ||| 0o7000) &&& (S_IFMT ||| 0o777) = m &&& (S_IFMT ||| 0o777) := by
      rw [Nat.and_distrib_right]
      have : (0o7000 : Nat) &&& (S_IFMT ||| 0o777) = 0 := by decide
      rw [this, Nat.or_zero]
    unfold mode_field
    rw [← h1, h3, h2]
  refine ⟨by simp [mode_field, pad_right, hl], ?_, ?_, ?_, ?_, ?_, ?_, ?_, ?_, ?_, ?_, ?_, ?_, hor, ?_⟩
  · simp [mode_field, pad_right, file_mode]
  · simpa [mode_field, pad_right, file_mode, S_IRUSR] using e8
  · simpa [mode_field, pad_right, file_mode, S_IWUSR] using e7
  · simpa [mode_field, pad_right, file_mode, S_IXUSR] using e6
  · simpa [mode_field, pad_right, file_mode, S_IRGRP] using e5
  · simpa [mode_field, pad_right, file_mode, S_IWGRP] using e4
  · simpa [mode_field, pad_right, file_mode, S_IXGRP] using e3
  · simpa [mode_field, pad_right, file_mode, S_IROTH] using e2
  · simpa [mode_field, pad_right, file_mode, S_IWOTH] using e1
  · simp [mode_field, pad_right, file_mode, S_IXOTH]
  · simp [mode_field, pad_right, file_mode]
  · simp [mode_field, file_mode_mask]
  · intro d
    have h11 : (pad_right 11 (file_mode m)).length = 11 := by simp [pad_right, hl]
    simp only [Details.render, mode_field, List.append_assoc]
    rw [List.take_append_of_le_length (by omega), List.take_of_length_le (by omega)]

/-! ## Paths and the suppression test -/

theorem strrchr_none (c : Char) : ∀ s : CStr, c ∉ s → strrchr s c = none := by
  intro s
  induction s with
  | nil => intro _; rfl
  | cons x xs ih =>
    intro h
    simp only [List.mem_cons, not_or] at h
    have hx : ¬ x = c := fun e => h.1 e.symm
    simp [strrchr, ih h.2, hx]

theorem strrchr_append (c : Char) (suf : CStr) (h : c ∉ suf) :
    ∀ pre : CStr, strrchr (pre ++ c :: suf) c = some (c :: suf) := by
  intro pre
  induction pre with
  | nil => simp [strrchr, strrchr_none c suf h]
  | cons x xs ih => simp [strrchr, ih]

theorem split_at_last (c : Char) : ∀ s : CStr, c ∈ s →
    ∃ pre suf, s = pre ++ c :: suf ∧ c ∉ suf := by
  intro s
  induction s with
  | nil => intro h; simp at h
  | cons x xs ih =>
    intro h
    by_cases hxs : c ∈ xs
    · obtain ⟨pre, suf, he, hs⟩ := ih hxs
      exact ⟨x :: pre, suf, by simp [he], hs⟩
    · simp only [List.mem_cons, hxs, or_false] at h
      exact ⟨[], xs, by simp [h], hxs⟩

theorem final_segment_append (pre suf : CStr) (h : '/' ∉ suf) :
    final_segment (pre ++ '/' :: suf) = suf := by
  unfold final_segment
  have h1 : (pre ++ '/' :: suf).reverse = suf.reverse ++ '/' :: pre.reverse := by simp
  rw [h1, List.takeWhile_append_of_pos, List.takeWhile_cons_of_neg]
  · simp
  · simp
  · intro x hx
    have hx' : x ∈ suf := List.mem_reverse.1 hx
    have : x ≠ '/' := fun e => h (e ▸ hx')
    simpa using this

theorem final_segment_of_not_mem (s : CStr) (h : '/' ∉ s) : final_segment s = s := by
  unfold final_segment
  rw [List.takeWhile_eq_self_iff.2]
  · simp
  · intro x hx
    have hx' : x ∈ s := List.mem_reverse.1 hx
    have : x ≠ '/' := fun e => h (e ▸ hx')
    simpa using this

theorem is_suppressed_append (pre suf : CStr) (h : '/' ∉ suf) :
    is_suppressed (pre ++ '/' :: suf) = (suf.head? == some '.') := by
  unfold is_suppressed
  rw [strrchr_append '/' suf h]
  cases suf <;> simp

theorem printed_name_append (pre suf : CStr) (h : '/' ∉ suf) :
    printed_name (pre ++ '/' :: suf) = suf := by
  unfold printed_name
  rw [strrchr_append '/' suf h]
  simp

theorem stdout_nil : stdout [] = [] := rfl

theorem stdout_perror : stdout [Event.perror] = [] := rfl

/-- C8 (amended): for every path that contains a `/` and whose final segment begins
with `.`, and for every combination of show-index and show-details,
`print_file_info` returns and writes nothing to standard output. -/
theorem print_file_info_hidden (env : Env) (fs : FileSystem) (path : CStr)
    (show_index show_details : Bool) (hslash : '/' ∈ path)
    (hhidden : (final_segment path).head? = some '.') :
    ∃ trace, print_file_info env fs path show_index show_details = .ok trace ∧
      stdout trace = [] := by
  obtain ⟨pre, suf, he, hs⟩ := split_at_last '/' path hslash
  subst he
  rw [final_segment_append pre suf hs] at hhidden
  unfold print_file_info
  cases hl : fs.lstat (pre ++ '/' :: suf) with
  | none => exact ⟨[Event.perror], rfl, rfl⟩
  | some st =>
    refine ⟨[], ?_, rfl⟩
    simp [is_suppressed_append pre suf hs, hhidden]

theorem print_file_info_hidden_witness :
    ∃ trace, print_file_info example_env hidden_fs (cstr "dir/.hidden") true true = .ok trace ∧
      stdout trace = [] :=
  print_file_info_hidden example_env hidden_fs (cstr "dir/.hidden") true true
    (by decide) (by decide)

/-- C8 (as stated) fails for a path without `/`: for the top-level argument
`.hidden`, whose final segment begins with `.`, `print_file_info` prints the line
`.hidden`. -/
theorem print_file_info_hidden_counterexample :
    (final_segment (cstr ".hidden")).head? = some '.' ∧
    print_file_info example_env hidden_fs (cstr ".hidden") false false =
      .ok [Event.entry none none (cstr ".hidden")] ∧
    stdout [Event.entry none none (cstr ".hidden")] = cstr ".hidden\n" :=
  ⟨by decide, rfl, by decide⟩

/-! ## Argument parsing -/

theorem parse_flag_chars_none (cs : CStr) :
    ∀ o : Options, (∃ c ∈ cs, c ≠ 'i' ∧ c ≠ 'l' ∧ c ≠ 'R') → parse_flag_chars cs o = none := by
  induction cs with
  | nil => intro o h; simp at h
  | cons x xs ih =>
    intro o h
    obtain ⟨c, hc, hbad⟩ := h
    simp only [List.mem_cons] at hc
    unfold parse_flag_chars
    by_cases hi : x = 'i'
    · subst hi
      rcases hc with rfl | hc
      · exact absurd rfl hbad.1
      · simp only [if_true]; exact ih _ ⟨c, hc, hbad⟩
    · by_cases hl : x = 'l'
      · subst hl
        rcases hc with rfl | hc
        · exact absurd rfl hbad.2.1
        · simp only [hi, if_false, if_true]; exact ih _ ⟨c, hc, hbad⟩
      · by_cases hR : x = 'R'
        · subst hR
          rcases hc with rfl | hc
          · exact absurd rfl hbad.2.2
          · simp only [hi, hl, if_false, if_true]; exact ih _ ⟨c, hc, hbad⟩
        · simp [hi, hl, hR]

theorem parse_args_none (args : List CStr) :
    ∀ o : Options, (∃ t ∈ leading_flags args, ∃ c ∈ t.drop 1, c ≠ 'i' ∧ c ≠ 'l' ∧ c ≠ 'R') →
      parse_args args o = none := by
  induction args with
  | nil => intro o h; simp [leading_flags] at h
  | cons a rest ih =>
    intro o h
    obtain ⟨t, ht, hbad⟩ := h
    unfold parse_args
    by_cases hf : a.head? = some '-'
    · have hf' : is_flag_token a = true := by simp [is_flag_token, hf]
      simp only [leading_flags, List.takeWhile_cons, hf', if_true, List.mem_cons] at ht
      simp only [hf, if_true]
      cases hp : parse_flag_chars (a.drop 1) o with
      | none => rfl
      | some o' =>
        rcases ht with rfl | ht
        · rw [parse_flag_chars_none _ o hbad] at hp
          cases hp
        · exact ih o' ⟨t, ht, hbad⟩
    · have hf' : is_flag_token a = false := by simp [is_flag_token, hf]
      simp [leading_flags, List.takeWhile_cons, hf'] at ht

/-- C6: for every argument list in which a token that starts with `-` and precedes
the first token not starting with `-` has, after its `-`, a character other than
`i`, `l`, `R`, `main` returns status 1 after the single output action of printing
`Error: Unsupported Option` and a newline; no path is listed. -/
theorem main_unsupported_option (env : Env) (fs : FileSystem) (fuel : Nat) (argv : List CStr)
    (h : ∃ t ∈ leading_flags (argv.drop 1), ∃ c ∈ t.drop 1, c ≠ 'i' ∧ c ≠ 'l' ∧ c ≠ 'R') :
    ∃ trace, main env fs fuel argv = .ok (trace, 1) ∧
      trace = [Event.unsupported_option] ∧
      stdout trace = cstr "Error: Unsupported Option\n" ∧
      visited trace = [] := by
  refine ⟨[Event.unsupported_option], ?_, rfl, by decide, rfl⟩
  unfold main
  rw [parse_args_none _ _ h]

theorem main_unsupported_option_witness :
    ∃ trace, main example_env scenario_fs 0 [cstr "myls", cstr "-z"] = .ok (trace, 1) ∧
      trace = [Event.unsupported_option] ∧
      stdout trace = cstr "Error: Unsupported Option\n" ∧
      visited trace = [] :=
  main_unsupported_option example_env scenario_fs 0 [cstr "myls", cstr "-z"]
    ⟨cstr "-z", by decide, 'z', by decide, by decide⟩

theorem parse_flag_chars_some (cs : CStr) :
    ∀ o : Options, (∀ c ∈ cs, c = 'i' ∨ c = 'l' ∨ c = 'R') →
      ∃ o', parse_flag_chars cs o = some o' ∧
        (o'.show_index = true ↔ o.show_index = true ∨ 'i' ∈ cs) ∧
        (o'.show_details = true ↔ o.show_details = true ∨ 'l' ∈ cs) ∧
        (o'.is_recursive = true ↔ o.is_recursive = true ∨ 'R' ∈ cs) := by
  induction cs with
  | nil => intro o _; exact ⟨o, rfl, by simp, by simp, by simp⟩
  | cons x xs ih =>
    intro o h
    have hx := h x (by simp)
    have hxs : ∀ c ∈ xs, c = 'i' ∨ c = 'l' ∨ c = 'R' := fun c hc => h c (by simp [hc])
    unfold parse_flag_chars
    rcases hx with rfl | rfl | rfl
    · obtain ⟨o', he, h1, h2, h3⟩ := ih { o with show_index := true } hxs
      refine ⟨o', by simpa using he, ?_, ?_, ?_⟩
      · simp [h1]
      · rw [h2]; simp
      · rw [h3]; simp
    · obtain ⟨o', he, h1, h2, h3⟩ := ih { o with show_details := true } hxs
      refine ⟨o', by simpa using he, ?_, ?_, ?_⟩
      · rw [h1]; simp
      · simp [h2]
      · rw [h3]; simp
    · obtain ⟨o', he, h1, h2, h3⟩ := ih { o with is_recursive := true } hxs
      refine ⟨o', by simpa using he, ?_, ?_, ?_⟩
      · rw [h1]; simp
      · rw [h2]; simp
      · simp [h3]

theorem parse_args_some (args : List CStr) :
    ∀ o : Options, (∀ t ∈ leading_flags args, ∀ c ∈ t.drop 1, c = 'i' ∨ c = 'l' ∨ c = 'R') →
      ∃ o', parse_args args o = some (o', path_tokens args) ∧
        (o'.show_index = true ↔
          o.show_index = true ∨ ∃ t ∈ leading_flags args, 'i' ∈ t.drop 1) ∧
        (o'.show_details = true ↔
          o.show_details = true ∨ ∃ t ∈ leading_flags args, 'l' ∈ t.drop 1) ∧
        (o'.is_recursive = true ↔
          o.is_recursive = true ∨ ∃ t ∈ leading_flags args, 'R' ∈ t.drop 1) := by
  induction args with
  | nil => intro o _; exact ⟨o, rfl, by simp [leading_flags], by simp [leading_flags],
      by simp [leading_flags]⟩
  | cons a rest ih =>
    intro o h
    unfold parse_args
    by_cases hf : a.head? = some '-'
    · have hf' : is_flag_token a = true := by simp [is_flag_token, hf]
      have hlead : leading_flags (a :: rest) = a :: leading_flags rest := by
        simp [leading_flags, List.takeWhile_cons, hf']
      have hpath : path_tokens (a :: rest) = path_tokens rest := by
        simp [path_tokens, List.dropWhile_cons, hf']
      rw [hlead] at h
      obtain ⟨o1, he1, a1, a2, a3⟩ := parse_flag_chars_some (a.drop 1) o (h a (by simp))
      obtain ⟨o2, he2, b1, b2, b3⟩ := ih o1 (fun t ht => h t (by simp [ht]))
      refine ⟨o2, ?_, ?_, ?_, ?_⟩
      · simp only [hf, if_true, he1, he2, hpath]
      · rw [b1, a1, hlead]; simp [or_assoc]
      · rw [b2, a2, hlead]; simp [or_assoc]
      · rw [b3, a3, hlead]; simp [or_assoc]
    · have hf' : is_flag_token a = false := by simp [is_flag_token, hf]
      have hlead : leading_flags (a :: rest) = [] := by
        simp [leading_flags, List.takeWhile_cons, hf']
      have hpath : path_tokens (a :: rest) = a :: rest := by
        simp [path_tokens, List.dropWhile_cons, hf']
      refine ⟨o, by simp [hf, hpath], ?_, ?_, ?_⟩ <;> simp [hlead]

theorem mem_drop_one_of_flag (c : Char) (hc : c ≠ '-') (args : List CStr) (t : CStr)
    (ht : t ∈ leading_flags args) : c ∈ t.drop 1 ↔ c ∈ t := by
  have hflag : is_flag_token t = true := by
    have := List.mem_takeWhile_imp ht
    exact this
  cases t with
  | nil => simp
  | cons x xs =>
    have hx : x = '-' := by simpa [is_flag_token] using hflag
    subst hx
    simp only [List.drop_succ_cons, List.drop_zero, List.mem_cons]
    constructor
    · intro h; exact Or.inr h
    · intro h
      rcases h with h | h
      · exact absurd h hc
      · exact h

/-- C7: for every argument list whose leading flag tokens have only `i`, `l`, `R`
after their `-`, parsing succeeds; show-index is set iff `i` occurs in some leading
flag token, show-details iff `l` occurs, recursive iff `R` occurs; the paths are the
tokens from the first one that does not start with `-` on (later tokens starting with
`-` included), listed in order by the path loop; with no path token `main` lists
the single path `.` and returns 0. -/
theorem main_parses_flags (env : Env) (fs : FileSystem) (fuel : Nat) (argv : List CStr)
    (h : ∀ t ∈ leading_flags (argv.drop 1), ∀ c ∈ t.drop 1, c = 'i' ∨ c = 'l' ∨ c = 'R') :
    ∃ o : Options,
      parse_args (argv.drop 1) {} = some (o, path_tokens (argv.drop 1)) ∧
      (o.show_index = true ↔ ∃ t ∈ leading_flags (argv.drop 1), 'i' ∈ t) ∧
      (o.show_details = true ↔ ∃ t ∈ leading_flags (argv.drop 1), 'l' ∈ t) ∧
      (o.is_recursive = true ↔ ∃ t ∈ leading_flags (argv.drop 1), 'R' ∈ t) ∧
      main env fs fuel argv =
        (if path_tokens (argv.drop 1) = [] then
          (list_directory env fs fuel (cstr ".") o.is_recursive o.show_index
            o.show_details).map (fun r => (r.1, 0))
        else list_paths env fs fuel o (path_tokens (argv.drop 1))) := by
  obtain ⟨o, he, h1, h2, h3⟩ := parse_args_some (argv.drop 1) {} h
  have conv : ∀ c : Char, c ≠ '-' →
      ((∃ t ∈ leading_flags (argv.drop 1), c ∈ t.drop 1) ↔
        ∃ t ∈ leading_flags (argv.drop 1), c ∈ t) := by
    intro c hc
    constructor
    · rintro ⟨t, ht, hm⟩
      exact ⟨t, ht, (mem_drop_one_of_flag c hc _ t ht).1 hm⟩
    · rintro ⟨t, ht, hm⟩
      exact ⟨t, ht, (mem_drop_one_of_flag c hc _ t ht).2 hm⟩
  refine ⟨o, he, ?_, ?_, ?_, ?_⟩
  · rw [h1, conv 'i' (by decide)]; simp
  · rw [h2, conv 'l' (by decide)]; simp
  · rw [h3, conv 'R' (by decide)]; simp
  · unfold main
    rw [he]
    cases hp : path_tokens (argv.drop 1) with
    | nil =>
      simp only [if_true]
      cases list_directory env fs fuel (cstr ".") o.is_recursive o.show_index o.show_details with
      | error f => rfl
      | ok r => rfl
    | cons p ps => simp

theorem main_parses_flags_witness :
    ∃ o : Options,
      parse_args (example_argv.drop 1) {} = some (o, path_tokens (example_argv.drop 1)) ∧
      (o.show_index = true ↔ ∃ t ∈ leading_flags (example_argv.drop 1), 'i' ∈ t) ∧
      (o.show_details = true ↔ ∃ t ∈ leading_flags (example_argv.drop 1), 'l' ∈ t) ∧
      (o.is_recursive = true ↔ ∃ t ∈ leading_flags (example_argv.drop 1), 'R' ∈ t) ∧
      main example_env scenario_fs 2 example_argv =
        (if path_tokens (example_argv.drop 1) = [] then
          (list_directory example_env scenario_fs 2 (cstr ".") o.is_recursive o.show_index
            o.show_details).map (fun r => (r.1, 0))
        else list_paths example_env scenario_fs 2 o (path_tokens (example_argv.drop 1))) :=
  main_parses_flags example_env scenario_fs 2 example_argv (by decide)

/-- The command line `myls -il -R /tmp/x -i`: all three options are set, and the
paths are `/tmp/x` and `-i`. -/
theorem example_argv_parse :
    parse_args (example_argv.drop 1) {} =
      some ({ show_index := true, show_details := true, is_recursive := true },
        [cstr "/tmp/x", cstr "-i"]) ∧
    parse_args [cstr "-ilR"] {} = parse_args [cstr "-R", cstr "-l", cstr "-i"] {} := by
  decide

/-! ## The reading loop -/

theorem read_loop_ok (fs : FileSystem) (path : CStr) (names : List CStr) :
    ∀ s s' : Scan, read_loop fs path names s = .ok s' →
      s'.entries = s.entries ++ stored_entries fs path names ∧
      s'.subdirectories = s.subdirectories ++ stored_subdirectories fs path names := by
  induction names with
  | nil =>
    intro s s' h
    simp only [read_loop, Except.ok.injEq] at h
    subst h
    simp [stored_entries, stored_subdirectories]
  | cons n rest ih =>
    intro s s' h
    unfold read_loop at h
    by_cases hd : strcmp n (cstr ".") ≠ 0 ∧ strcmp n (cstr "..") ≠ 0
    · have hnd : not_dot n = true := by simp only [not_dot]; exact decide_eq_true hd
      rw [if_pos hd] at h
      cases hl : fs.lstat (snprintf_path path n) with
      | none =>
        rw [hl] at h
        have := ih _ _ h
        simpa [stored_entries, stored_subdirectories, List.filter_cons, hnd, hl,
          is_directory] using this
      | some st =>
        rw [hl] at h
        simp only at h
        by_cases hdir : S_ISDIR st.st_mode = true
        · rw [if_pos hdir] at h
          split at h
          · have := ih _ _ h
            simpa [stored_entries, stored_subdirectories, List.filter_cons, hnd, hl,
              is_directory, hdir] using this
          · cases h
        · rw [if_neg hdir] at h
          split at h
          · have := ih _ _ h
            simpa [stored_entries, stored_subdirectories, List.filter_cons, hnd, hl,
              is_directory, hdir] using this
          · cases h
    · have hnd : not_dot n = false := by simp only [not_dot]; exact decide_eq_false hd
      rw [if_neg hd] at h
      have := ih _ _ h
      simpa [stored_entries, stored_subdirectories, List.filter_cons, hnd] using this

theorem mem_stored_subdirectories {fs : FileSystem} {path : CStr} {names : List CStr} {d : CStr}
    (h : d ∈ stored_subdirectories fs path names) :
    d ∈ names ∧ is_directory fs (snprintf_path path d) = true := by
  simp only [stored_subdirectories, List.mem_filter, Bool.and_eq_true] at h
  exact ⟨h.1, h.2.2⟩

/-! ## The flag `finished` -/

theorem subdir_loop_not_finished (recurse : CStr → Except Fault (List Event × Bool))
    (path : CStr) (is_recursive : Bool) (names : List CStr) :
    (∀ d ∈ names, ∀ trace fin, recurse (snprintf_path path d) = .ok (trace, fin) → fin = false) →
    ∀ flag trace fin, subdir_loop recurse path is_recursive names flag = .ok (trace, fin) →
      fin = false := by
  induction names with
  | nil =>
    intro _ flag trace fin h
    simp only [subdir_loop, Except.ok.injEq, Prod.mk.injEq] at h
    exact h.2.symm
  | cons n rest ih =>
    intro hrec flag trace fin h
    have ih' := ih (fun d hd => hrec d (by simp [hd]))
    unfold subdir_loop at h
    simp only at h
    by_cases hr : is_recursive = true
    · rw [if_pos hr] at h
      cases h1 : recurse (snprintf_path path n) with
      | error f => rw [h1] at h; cases h
      | ok r1 =>
        obtain ⟨sub, fin1⟩ := r1
        rw [h1] at h
        simp only at h
        cases h2 : subdir_loop recurse path is_recursive rest false with
        | error f => rw [h2] at h; cases h
        | ok r2 =>
          obtain ⟨tr2, fin2⟩ := r2
          rw [h2] at h
          simp only [Except.ok.injEq, Prod.mk.injEq] at h
          have e1 := hrec n (by simp) sub fin1 h1
          have e2 := ih' false tr2 fin2 h2
          rw [← h.2, e1, e2]; rfl
    · rw [if_neg hr] at h
      cases h2 : subdir_loop recurse path is_recursive rest false with
      | error f => rw [h2] at h; cases h
      | ok r2 =>
        obtain ⟨tr2, fin2⟩ := r2
        rw [h2] at h
        simp only [Except.ok.injEq, Prod.mk.injEq] at h
        have e2 := ih' false tr2 fin2 h2
        rw [← h.2, e2]

theorem list_directory_not_finished (env : Env) (fs : FileSystem) (hfs : fs.consistent)
    (is_recursive show_index show_details : Bool) :
    ∀ (fuel : Nat) (path : CStr) (trace : List Event) (fin : Bool),
      path_exists fs path = true →
      list_directory env fs fuel path is_recursive show_index show_details = .ok (trace, fin) →
      fin = false := by
  intro fuel
  induction fuel with
  | zero => intro path trace fin _ h; simp [list_directory] at h
  | succ fuel ih =>
    intro path trace fin hex h
    unfold list_directory at h
    cases ho : fs.opendir path with
    | none =>
      rw [ho] at h
      simp only at h
      have hacc : fs.access path = true := by simpa [path_exists, ho] using hex
      rw [if_neg (by simp [hacc])] at h
      cases hp : print_file_info env fs path show_index show_details with
      | error f => rw [hp] at h; cases h
      | ok line =>
        rw [hp] at h
        simp only [Except.ok.injEq, Prod.mk.injEq] at h
        exact h.2.symm
    | some names =>
      rw [ho] at h
      simp only at h
      cases hr : read_loop fs path names ⟨[], [], []⟩ with
      | error f => rw [hr] at h; cases h
      | ok scan =>
        rw [hr] at h
        simp only at h
        cases hp : print_loop env fs path show_index show_details
            (sort_lexicographically scan.entries scan.entries.length) true with
        | error f => rw [hp] at h; cases h
        | ok r1 =>
          obtain ⟨printed, flag⟩ := r1
          rw [hp] at h
          simp only at h
          cases hs : subdir_loop
              (fun p => list_directory env fs fuel p is_recursive show_index show_details)
              path is_recursive
              (sort_lexicographically scan.subdirectories scan.subdirectories.length) flag with
          | error f => rw [hs] at h; cases h
          | ok r2 =>
            obtain ⟨below, fin2⟩ := r2
            rw [hs] at h
            simp only [Except.ok.injEq, Prod.mk.injEq] at h
            rw [← h.2]
            refine subdir_loop_not_finished _ path is_recursive _ ?_ flag below fin2 hs
            intro d hd tr fn hcall
            have hperm := (sort_spec scan.subdirectories).2
            have hd' : d ∈ scan.subdirectories := hperm.subset hd
            have hsub := (read_loop_ok fs path names _ _ hr).2
            simp only [List.nil_append] at hsub
            rw [hsub] at hd'
            exact ih _ tr fn (hfs _ (mem_stored_subdirectories hd').2) hcall

/-! ## The path loop of `main` -/

theorem stdout_append (a b : List Event) : stdout (a ++ b) = stdout a ++ stdout b := by
  simp [stdout]

theorem list_directory_nonexistent (env : Env) (fs : FileSystem) (fuel : Nat) (path : CStr)
    (is_recursive show_index show_details : Bool) (h : path_exists fs path = false) :
    list_directory env fs (fuel + 1) path is_recursive show_index show_details =
      .ok ([Event.call path, Event.nonexistent], true) := by
  simp only [path_exists, Bool.or_eq_false_iff] at h
  unfold list_directory
  cases ho : fs.opendir path with
  | some names => simp [ho] at h
  | none => simp [h.2]

theorem list_paths_append (env : Env) (fs : FileSystem) (hfs : fs.consistent) (fuel : Nat)
    (o : Options) (rest : List CStr) :
    ∀ pre : List CStr,
      (∀ q ∈ pre, path_exists fs q = true) →
      (∀ q ∈ pre, ∃ r,
        list_directory env fs fuel q o.is_recursive o.show_index o.show_details = .ok r) →
      list_paths env fs fuel o (pre ++ rest) =
        match list_paths env fs fuel o rest with
        | .ok (trace, status) =>
          .ok (pre.flatMap (fun q => listing env fs fuel o q ++ [Event.newline]) ++ trace, status)
        | .error f => .error f := by
  intro pre
  induction pre with
  | nil =>
    intro _ _
    simp only [List.nil_append, List.flatMap_nil]
    cases list_paths env fs fuel o rest with
    | error f => rfl
    | ok r => rfl
  | cons q qs ih =>
    intro hex hret
    obtain ⟨⟨tr, fin⟩, hq⟩ := hret q (by simp)
    have hfin : fin = false :=
      list_directory_not_finished env fs hfs _ _ _ fuel q tr fin (hex q (by simp)) hq
    subst hfin
    have hl : listing env fs fuel o q = tr := by simp [listing, hq]
    have ih' := ih (fun x hx => hex x (by simp [hx])) (fun x hx => hret x (by simp [hx]))
    have step : list_paths env fs fuel o (q :: (qs ++ rest)) =
        match list_paths env fs fuel o (qs ++ rest) with
        | .ok (trace, status) => .ok (tr ++ Event.newline :: trace, status)
        | .error f => .error f := by
      rw [list_paths, hq]
      simp
    rw [List.cons_append, step, ih']
    cases list_paths env fs fuel o rest with
    | error f => rfl
    | ok r => simp [hl]

/-- C5: for the path arguments `paths` of a run of `main`, on a host where a
directory that `lstat` reports can be found again and where the listings of the
existing paths in question return: if `p` is the first path that does not exist,
`main` returns status 1 after the listings of the earlier paths, each followed by a
newline, and the line `Error: Nonexistent files or directories`, and nothing is done
for the paths after `p`; if every path exists, `main` returns status 0 after the
listings of all paths, each followed by a newline (with no path at all, after the
listing of `.`). -/
theorem main_stops_at_first_nonexistent (env : Env) (fs : FileSystem) (hfs : fs.consistent)
    (fuel : Nat) (argv : List CStr) (o : Options) (paths : List CStr)
    (hparse : parse_args (argv.drop 1) {} = some (o, paths)) :
    (∀ pre p post, paths = pre ++ p :: post →
      (∀ q ∈ pre, path_exists fs q = true) → path_exists fs p = false →
      (∀ q ∈ pre, ∃ r,
        list_directory env fs (fuel + 1) q o.is_recursive o.show_index o.show_details = .ok r) →
      main env fs (fuel + 1) argv =
        .ok (pre.flatMap (fun q => listing env fs (fuel + 1) o q ++ [Event.newline]) ++
              [Event.call p, Event.nonexistent], 1) ∧
      stdout (pre.flatMap (fun q => listing env fs (fuel + 1) o q ++ [Event.newline]) ++
              [Event.call p, Event.nonexistent]) =
        (pre.flatMap fun q => stdout (listing env fs (fuel + 1) o q) ++ cstr "\n") ++
          cstr "Error: Nonexistent files or directories\n") ∧
    (paths ≠ [] → (∀ q ∈ paths, path_exists fs q = true) →
      (∀ q ∈ paths, ∃ r,
        list_directory env fs fuel q o.is_recursive o.show_index o.show_details = .ok r) →
      main env fs fuel argv =
        .ok (paths.flatMap (fun q => listing env fs fuel o q ++ [Event.newline]), 0) ∧
      stdout (paths.flatMap (fun q => listing env fs fuel o q ++ [Event.newline])) =
        paths.flatMap fun q => stdout (listing env fs fuel o q) ++ cstr "\n") ∧
    (paths = [] → ∀ r,
      list_directory env fs fuel (cstr ".") o.is_recursive o.show_index o.show_details = .ok r →
      main env fs fuel argv = .ok (r.1, 0)) := by
  have hmain : ∀ fuel', paths ≠ [] →
      main env fs fuel' argv = list_paths env fs fuel' o paths := by
    intro fuel' hpaths
    unfold main
    rw [hparse]
    cases paths with
    | nil => exact absurd rfl hpaths
    | cons p ps => rfl
  have hstd : ∀ (f : CStr → List Event) (l : List CStr),
      stdout (l.flatMap fun q => f q ++ [Event.newline]) =
        l.flatMap fun q => stdout (f q) ++ cstr "\n" := by
    intro f l
    induction l with
    | nil => rfl
    | cons x xs ih =>
      simp only [List.flatMap_cons, stdout_append, ih]
      simp [stdout, Event.render]
  refine ⟨?_, ?_, ?_⟩
  · intro pre p post he hex hnex hret
    refine ⟨?_, ?_⟩
    · rw [hmain _ (by rw [he]; simp), he,
        list_paths_append env fs hfs (fuel + 1) o (p :: post) pre hex hret]
      simp [list_paths, list_directory_nonexistent env fs fuel p _ _ _ hnex]
    · rw [stdout_append, hstd]
      rfl
  · intro hpaths hex hret
    refine ⟨?_, hstd _ _⟩
    have := list_paths_append env fs hfs fuel o [] paths hex hret
    rw [List.append_nil] at this
    rw [hmain _ hpaths, this]
    simp [list_paths]
  · intro hnil r hr
    subst hnil
    unfold main
    rw [hparse]
    simp only [hr]

/-! ## `print_file_info` and the printing loop -/

theorem read_loop_eq (fs : FileSystem) (path : CStr) (names : List CStr) :
    ∀ s : Scan, s.subdirectories.length ≤ s.entries.length →
      s.entries.length + (stored_entries fs path names).length ≤ MAX_ENTRIES →
      read_loop fs path names s =
        .ok ⟨s.errors ++ read_errors fs path names,
             s.entries ++ stored_entries fs path names,
             s.subdirectories ++ stored_subdirectories fs path names⟩ := by
  induction names with
  | nil =>
    intro s _ _
    simp [read_loop, read_errors, stored_entries, stored_subdirectories]
  | cons n rest ih =>
    intro s hsub hcap
    unfold read_loop
    by_cases hd : strcmp n (cstr ".") ≠ 0 ∧ strcmp n (cstr "..") ≠ 0
    · have hnd : not_dot n = true := by simp only [not_dot]; exact decide_eq_true hd
      rw [if_pos hd]
      cases hl : fs.lstat (snprintf_path path n) with
      | none =>
        have e1 : stored_entries fs path (n :: rest) = stored_entries fs path rest := by
          simp [stored_entries, List.filter_cons, hnd, hl]
        rw [e1] at hcap
        simp only
        rw [ih ⟨s.errors ++ [Event.perror], s.entries, s.subdirectories⟩ hsub hcap]
        simp [read_errors, stored_entries, stored_subdirectories, List.filter_cons, hnd, hl,
          is_directory]
      | some st =>
        have e1 : stored_entries fs path (n :: rest) = n :: stored_entries fs path rest := by
          simp [stored_entries, List.filter_cons, hnd, hl]
        rw [e1] at hcap
        simp only [List.length_cons] at hcap
        have hlt : s.entries.length < MAX_ENTRIES := by omega
        have hlt' : s.subdirectories.length < MAX_ENTRIES := by omega
        simp only
        by_cases hdir : S_ISDIR st.st_mode = true
        · rw [if_pos hdir, if_pos ⟨hlt', hlt⟩]
          rw [ih _ (by simp; omega) (by simp; omega)]
          simp [read_errors, stored_entries, stored_subdirectories, List.filter_cons, hnd, hl,
            is_directory, hdir]
        · rw [if_neg hdir, if_pos hlt]
          rw [ih _ (by simp; omega) (by simp; omega)]
          simp [read_errors, stored_entries, stored_subdirectories, List.filter_cons, hnd, hl,
            is_directory, hdir]
    · have hnd : not_dot n = false := by simp only [not_dot]; exact decide_eq_false hd
      rw [if_neg hd]
      have e1 : stored_entries fs path (n :: rest) = stored_entries fs path rest := by
        simp [stored_entries, List.filter_cons, hnd]
      rw [e1] at hcap
      rw [ih _ hsub hcap]
      simp [read_errors, stored_entries, stored_subdirectories, List.filter_cons, hnd]

theorem stored_subdirectories_sublist (fs : FileSystem) (path : CStr) (names : List CStr) :
    (stored_subdirectories fs path names).Sublist (stored_entries fs path names) := by
  induction names with
  | nil => simp [stored_subdirectories, stored_entries]
  | cons n rest ih =>
    simp only [stored_subdirectories, stored_entries, List.filter_cons] at ih ⊢
    by_cases hnd : not_dot n = true
    · cases hl : fs.lstat (snprintf_path path n) with
      | none => simpa [hnd, hl, is_directory] using ih
      | some st =>
        by_cases hdir : S_ISDIR st.st_mode = true
        · simpa [hnd, hl, is_directory, hdir] using ih
        · simpa [hnd, hl, is_directory, hdir] using ih.cons n
    · simpa [hnd] using ih

theorem print_file_info_suppressed (env : Env) (fs : FileSystem) (path : CStr) (st : Stat)
    (show_index show_details : Bool) (hl : fs.lstat path = some st)
    (hs : is_suppressed path = true) :
    print_file_info env fs path show_index show_details = .ok [] := by
  simp [print_file_info, hl, hs]

theorem print_file_info_entry (env : Env) (fs : FileSystem) (path : CStr) (st : Stat)
    (show_index show_details : Bool) (hl : fs.lstat path = some st)
    (hs : is_suppressed path = false)
    (hres : show_details = true → resolves env st = true) :
    ∃ index details, print_file_info env fs path show_index show_details =
      .ok [Event.entry index details (printed_name path)] := by
  unfold print_file_info
  simp only [hl, hs]
  cases show_details with
  | false => exact ⟨if show_index = true then some st.st_ino else none, none, by simp⟩
  | true =>
    have h := hres rfl
    simp only [resolves, Bool.and_eq_true, Option.isSome_iff_exists] at h
    obtain ⟨⟨⟨pw, hpw⟩, ⟨gr, hgr⟩⟩, ⟨date, hdate⟩⟩ := h
    exact ⟨if show_index = true then some st.st_ino else none,
      some { file_mode := file_mode st.st_mode, st_nlink := to_long st.st_nlink,
             pw_name := pw, gr_name := gr, st_size := to_long st.st_size,
             date := date, target := link_target fs path st },
      by simp [hpw, hgr, hdate]⟩

theorem print_loop_spec (env : Env) (fs : FileSystem) (path : CStr)
    (show_index show_details : Bool) (names : List CStr) :
    ∀ flag : Bool,
      (∀ n ∈ names, ∃ st, fs.lstat (snprintf_path path n) = some st ∧
        (is_suppressed (snprintf_path path n) = false → show_details = true →
          resolves env st = true)) →
      ∃ lines, print_loop env fs path show_index show_details names flag =
          .ok ((if flag && !names.isEmpty then [Event.header path] else []) ++ lines,
            flag && names.isEmpty) ∧
        (∀ e ∈ lines, e.is_entry = true) ∧
        printed_names lines =
          (names.filter fun n => !is_suppressed (snprintf_path path n)).map
            fun n => printed_name (snprintf_path path n) := by
  induction names with
  | nil =>
    intro flag _
    exact ⟨[], by simp [print_loop], by simp, by simp [printed_names]⟩
  | cons n rest ih =>
    intro flag h
    obtain ⟨st, hl, hres⟩ := h n (by simp)
    obtain ⟨lines, he, hent, hnames⟩ := ih false (fun m hm => h m (by simp [hm]))
    simp only [Bool.false_and, if_false, List.nil_append] at he
    unfold print_loop
    simp only [hl, he]
    by_cases hs : is_suppressed (snprintf_path path n) = true
    · rw [print_file_info_suppressed env fs _ st _ _ hl hs]
      refine ⟨lines, by cases flag <;> simp, hent, ?_⟩
      simp [List.filter_cons, hs, hnames]
    · have hs' : is_suppressed (snprintf_path path n) = false := by simpa using hs
      obtain ⟨index, details, hp⟩ :=
        print_file_info_entry env fs _ st show_index show_details hl hs' (hres hs')
      rw [hp]
      refine ⟨Event.entry index details (printed_name (snprintf_path path n)) :: lines,
        by cases flag <;> simp, ?_, ?_⟩
      · intro e he'
        simp only [List.mem_cons] at he'
        rcases he' with rfl | he'
        · rfl
        · exact hent e he'
      · simp [List.filter_cons, hs', ← hnames, printed_names, List.filterMap_cons]

theorem subdir_loop_flat (recurse : CStr → Except Fault (List Event × Bool)) (path : CStr)
    (names : List CStr) :
    ∀ flag : Bool, subdir_loop recurse path false names flag =
      .ok ((if flag && !names.isEmpty then [Event.header path] else []), false) := by
  induction names with
  | nil => intro flag; simp [subdir_loop]
  | cons n rest ih =>
    intro flag
    unfold subdir_loop
    simp only [ih false]
    cases flag <;> simp

theorem mem_stored_entries {fs : FileSystem} {path : CStr} {names : List CStr} {n : CStr}
    (h : n ∈ stored_entries fs path names) :
    n ∈ names ∧ not_dot n = true ∧ ∃ st, fs.lstat (snprintf_path path n) = some st := by
  simp only [stored_entries, List.mem_filter, Bool.and_eq_true, Option.isSome_iff_exists] at h
  exact ⟨h.1, h.2.1, h.2.2⟩

theorem isEmpty_eq_of_length_eq (l₁ l₂ : List CStr) (h : l₁.length = l₂.length) :
    l₁.isEmpty = l₂.isEmpty := by
  cases l₁ <;> cases l₂ <;> simp at h ⊢

/-- The listing of a directory without recursion. -/
theorem list_directory_flat (env : Env) (fs : FileSystem) (path : CStr) (names : List CStr)
    (show_index show_details : Bool) (fuel : Nat)
    (hopen : fs.opendir path = some names)
    (hcap : (stored_entries fs path names).length ≤ MAX_ENTRIES)
    (hres : show_details = true → ∀ n ∈ stored_entries fs path names, ∀ st,
      fs.lstat (snprintf_path path n) = some st →
      is_suppressed (snprintf_path path n) = false → resolves env st = true) :
    ∃ lines, list_directory env fs (fuel + 1) path false show_index show_details =
        .ok (Event.call path :: read_errors fs path names ++
          (if (stored_entries fs path names).isEmpty then [] else [Event.header path]) ++ lines,
          false) ∧
      (∀ e ∈ lines, e.is_entry = true) ∧
      printed_names lines =
        ((sort_lexicographically (stored_entries fs path names)
            (stored_entries fs path names).length).filter
          fun n => !is_suppressed (snprintf_path path n)).map
          fun n => printed_name (snprintf_path path n) := by
  have hread := read_loop_eq fs path names ⟨[], [], []⟩ (by simp) (by simpa using hcap)
  simp only [List.nil_append] at hread
  have hperm := (sort_spec (stored_entries fs path names)).2
  obtain ⟨lines, hp, hent, hnames⟩ := print_loop_spec env fs path show_index show_details
    (sort_lexicographically (stored_entries fs path names) (stored_entries fs path names).length)
    true (by
      intro n hn
      have hn' := hperm.subset hn
      obtain ⟨_, _, st, hl⟩ := mem_stored_entries hn'
      exact ⟨st, hl, fun hs hd => hres hd n hn' st hl hs⟩)
  refine ⟨lines, ?_, hent, hnames⟩
  unfold list_directory
  simp only [hopen, hread, hp, subdir_loop_flat]
  have hempty : (sort_lexicographically (stored_entries fs path names)
      (stored_entries fs path names).length).isEmpty = (stored_entries fs path names).isEmpty := by
    exact isEmpty_eq_of_length_eq _ _ hperm.length_eq
  have hsub : (stored_entries fs path names).isEmpty = true →
      (sort_lexicographically (stored_subdirectories fs path names)
        (stored_subdirectories fs path names).length).isEmpty = true := by
    intro he
    have h1 : stored_entries fs path names = [] := by simpa using he
    have h2 := stored_subdirectories_sublist fs path names
    rw [h1] at h2
    have h3 : stored_subdirectories fs path names = [] := by simpa using h2
    rw [h3]
    rfl
  rw [hempty]
  cases he : (stored_entries fs path names).isEmpty with
  | true => simp [hsub he]
  | false => simp

/-! ## Runs that leave defined behaviour -/

/-- A long-format line for a visible entry whose owner is not in the user database
reads through the NULL that `getpwuid` returns. -/
theorem print_file_info_unknown_owner (env : Env) (fs : FileSystem) (path : CStr) (st : Stat)
    (show_index : Bool) (hl : fs.lstat path = some st) (hs : is_suppressed path = false)
    (hpw : env.getpwuid st.st_uid = none) :
    print_file_info env fs path show_index true = .error Fault.null_dereference := by
  simp [print_file_info, hl, hs, hpw]

theorem read_loop_overflow (fs : FileSystem) (path : CStr) (names : List CStr) :
    ∀ s : Scan, s.subdirectories.length ≤ s.entries.length →
      s.entries.length ≤ MAX_ENTRIES →
      MAX_ENTRIES < s.entries.length + (stored_entries fs path names).length →
      read_loop fs path names s = .error Fault.buffer_overflow := by
  induction names with
  | nil =>
    intro s _ h1 h2
    simp [stored_entries] at h2
    omega
  | cons n rest ih =>
    intro s hsub hle hcap
    unfold read_loop
    by_cases hd : strcmp n (cstr ".") ≠ 0 ∧ strcmp n (cstr "..") ≠ 0
    · have hnd : not_dot n = true := by simp only [not_dot]; exact decide_eq_true hd
      rw [if_pos hd]
      cases hl : fs.lstat (snprintf_path path n) with
      | none =>
        have e1 : stored_entries fs path (n :: rest) = stored_entries fs path rest := by
          simp [stored_entries, List.filter_cons, hnd, hl]
        rw [e1] at hcap
        exact ih ⟨s.errors ++ [Event.perror], s.entries, s.subdirectories⟩ hsub hle hcap
      | some st =>
        have e1 : stored_entries fs path (n :: rest) = n :: stored_entries fs path rest := by
          simp [stored_entries, List.filter_cons, hnd, hl]
        rw [e1] at hcap
        simp only [List.length_cons] at hcap
        simp only
        by_cases hlt : s.entries.length < MAX_ENTRIES
        · have hlt' : s.subdirectories.length < MAX_ENTRIES := by omega
          by_cases hdir : S_ISDIR st.st_mode = true
          · rw [if_pos hdir, if_pos ⟨hlt', hlt⟩]
            exact ih _ (by simp; omega) (by simp; omega) (by simp; omega)
          · rw [if_neg hdir, if_pos hlt]
            exact ih _ (by simp; omega) (by simp; omega) (by simp; omega)
        · by_cases hdir : S_ISDIR st.st_mode = true
          · rw [if_pos hdir, if_neg (fun h => hlt h.2)]
          · rw [if_neg hdir, if_neg hlt]
    · have hnd : not_dot n = false := by simp only [not_dot]; exact decide_eq_false hd
      rw [if_neg hd]
      have e1 : stored_entries fs path (n :: rest) = stored_entries fs path rest := by
        simp [stored_entries, List.filter_cons, hnd]
      rw [e1] at hcap
      exact ih s hsub hle hcap

/-- A directory with more than `MAX_ENTRIES` entries that `lstat` can read makes the
reading loop write past the end of `entries`. -/
theorem list_directory_overflow (env : Env) (fs : FileSystem) (path : CStr) (names : List CStr)
    (is_recursive show_index show_details : Bool) (fuel : Nat)
    (hopen : fs.opendir path = some names)
    (hcap : MAX_ENTRIES < (stored_entries fs path names).length) :
    list_directory env fs (fuel + 1) path is_recursive show_index show_details =
      .error Fault.buffer_overflow := by
  unfold list_directory
  simp only [hopen]
  rw [read_loop_overflow fs path names ⟨[], [], []⟩ (by simp) (by simp [MAX_ENTRIES])
    (by simpa using hcap)]

/-! ## Names printed for one directory -/

theorem snprintf_path_fits (path n : CStr) (h : path.length + 1 + n.length < MAX_PATH_LENGTH) :
    snprintf_path path n = path ++ '/' :: n := by
  unfold snprintf_path
  apply List.take_of_length_le
  simp only [List.length_append, List.length_cons]
  omega

theorem is_hidden_of_not_dot_false (n : CStr) (h : not_dot n = false) : is_hidden n = true := by
  have h' : ¬ (strcmp n (cstr ".") ≠ 0 ∧ strcmp n (cstr "..") ≠ 0) := by
    simpa [not_dot] using h
  cases n with
  | nil => exact absurd (by decide) h'
  | cons x xs =>
    by_cases hx : x = '.'
    · subst hx; rfl
    · exfalso
      apply h'
      have hne := toNat_ne_of_ne hx
      have : ('.' : Char).toNat = 46 := rfl
      constructor
      · show strcmp (x :: xs) ['.'] ≠ 0
        simp only [strcmp, ne_eq, hx, not_false_eq_true, if_true]
        omega
      · show strcmp (x :: xs) ['.', '.'] ≠ 0
        simp only [strcmp, ne_eq, hx, not_false_eq_true, if_true]
        omega

theorem printed_names_append (a b : List Event) :
    printed_names (a ++ b) = printed_names a ++ printed_names b := by
  simp [printed_names, List.filterMap_append]

theorem printed_names_read_errors (fs : FileSystem) (path : CStr) (names : List CStr) :
    printed_names (read_errors fs path names) = [] := by
  simp [printed_names, read_errors, List.filterMap_map]

/-- The listing of a directory whose paths fit the path buffer and whose entries
all have readable metadata. -/
theorem list_directory_flat_names (env : Env) (fs : FileSystem) (path : CStr)
    (names : List CStr) (show_index show_details : Bool) (fuel : Nat)
    (hopen : fs.opendir path = some names)
    (hmeta : ∀ n ∈ names, not_dot n = true → (fs.lstat (path ++ '/' :: n)).isSome = true)
    (hslash : ∀ n ∈ names, '/' ∉ n)
    (hfit : ∀ n ∈ names, not_dot n = true → path.length + 1 + n.length < MAX_PATH_LENGTH)
    (hcap : (names.filter not_dot).length ≤ MAX_ENTRIES)
    (hres : show_details = true → ∀ n ∈ names, is_hidden n = false →
      entry_resolves env fs (path ++ '/' :: n) = true) :
    ∃ lines, list_directory env fs (fuel + 1) path false show_index show_details =
        .ok (Event.call path ::
          (if (names.filter not_dot).isEmpty then [] else [Event.header path]) ++ lines,
          false) ∧
      (∀ e ∈ lines, e.is_entry = true) ∧
      printed_names lines =
        (sort_lexicographically (names.filter not_dot) (names.filter not_dot).length).filter
          fun n => !is_hidden n := by
  have hstored : stored_entries fs path names = names.filter not_dot := by
    unfold stored_entries
    apply List.filter_congr
    intro n hn
    by_cases hnd : not_dot n = true
    · rw [snprintf_path_fits path n (hfit n hn hnd), hmeta n hn hnd, hnd]; rfl
    · simp [hnd]
  have herr : read_errors fs path names = [] := by
    unfold read_errors
    rw [List.map_eq_nil_iff, List.filter_eq_nil_iff]
    intro n hn
    by_cases hnd : not_dot n = true
    · have := hmeta n hn hnd
      rw [snprintf_path_fits path n (hfit n hn hnd)]
      simp [hnd, Option.isSome_iff_exists] at this ⊢
      obtain ⟨st, hst⟩ := this
      simp [hst]
    · simp [hnd]
  have hmem : ∀ n ∈ names.filter not_dot, n ∈ names ∧ not_dot n = true := by
    intro n hn
    simpa [List.mem_filter] using hn
  obtain ⟨lines, he, hent, hnames⟩ := list_directory_flat env fs path names show_index
    show_details fuel hopen (by rw [hstored]; exact hcap) (by
      intro hd n hn st hl hs
      rw [hstored] at hn
      obtain ⟨hn1, hn2⟩ := hmem n hn
      rw [snprintf_path_fits path n (hfit n hn1 hn2)] at hl hs
      rw [is_suppressed_append path n (hslash n hn1)] at hs
      have := hres hd n hn1 hs
      simpa [entry_resolves, hl] using this)
  rw [hstored, herr] at he
  rw [hstored] at hnames
  refine ⟨lines, by simpa using he, hent, ?_⟩
  rw [hnames]
  have hperm := (sort_spec (names.filter not_dot)).2
  have hsorted : ∀ n ∈ sort_lexicographically (names.filter not_dot)
      (names.filter not_dot).length, n ∈ names ∧ not_dot n = true :=
    fun n hn => hmem n (hperm.subset hn)
  rw [List.filter_congr (q := fun n => !is_hidden n), List.map_congr_left, List.map_id']
  · intro n hn
    have hn' := hsorted n (List.mem_filter.1 hn).1
    rw [snprintf_path_fits path n (hfit n hn'.1 hn'.2), printed_name_append path n (hslash n hn'.1)]
  · intro n hn
    have hn' := hsorted n hn
    rw [snprintf_path_fits path n (hfit n hn'.1 hn'.2), is_suppressed_append path n (hslash n hn'.1)]
    rfl

theorem filter_visible_not_dot (names : List CStr) :
    (names.filter not_dot).filter (fun n => !is_hidden n) = names.filter fun n => !is_hidden n := by
  rw [List.filter_filter]
  apply List.filter_congr
  intro n _
  by_cases hnd : not_dot n = true
  · simp [hnd]
  · have := is_hidden_of_not_dot_false n (by simpa using hnd)
    simp [this]

/-- C2 (amended): for every directory whose entries all have readable metadata,
with at most `MAX_ENTRIES` entries other than `.` and `..`, whose entry paths
`path/name` fit in `MAX_PATH_LENGTH - 1` bytes and, when show-details is set, whose
visible entries have an owner, a group and a date that resolve, `list_directory`
without recursion returns, and the names on its entry lines are, with multiplicity,
the directory's names that do not begin with `.` (so `.` and `..` are left out): the
same set, each name printed as often as it occurs, exactly once for distinct names. -/
theorem list_directory_prints_visible_names (env : Env) (fs : FileSystem) (path : CStr)
    (names : List CStr) (show_index show_details : Bool) (fuel : Nat)
    (hopen : fs.opendir path = some names)
    (hmeta : ∀ n ∈ names, not_dot n = true → (fs.lstat (path ++ '/' :: n)).isSome = true)
    (hslash : ∀ n ∈ names, '/' ∉ n)
    (hfit : ∀ n ∈ names, not_dot n = true → path.length + 1 + n.length < MAX_PATH_LENGTH)
    (hcap : (names.filter not_dot).length ≤ MAX_ENTRIES)
    (hres : show_details = true → ∀ n ∈ names, is_hidden n = false →
      entry_resolves env fs (path ++ '/' :: n) = true) :
    ∃ trace, list_directory env fs (fuel + 1) path false show_index show_details =
        .ok (trace, false) ∧
      (printed_names trace).Perm (names.filter fun n => !is_hidden n) ∧
      (∀ n, n ∈ printed_names trace ↔ n ∈ names ∧ is_hidden n = false) ∧
      (names.Nodup → (printed_names trace).Nodup) := by
  obtain ⟨lines, he, _, hnames⟩ := list_directory_flat_names env fs path names show_index
    show_details fuel hopen hmeta hslash hfit hcap hres
  have hp : printed_names (Event.call path ::
      (if (names.filter not_dot).isEmpty then [] else [Event.header path]) ++ lines) =
      printed_names lines := by
    cases (names.filter not_dot).isEmpty <;> simp [printed_names, List.filterMap_cons]
  have hperm : (printed_names lines).Perm (names.filter fun n => !is_hidden n) := by
    rw [hnames]
    have h := (sort_spec (names.filter not_dot)).2.filter (fun n => !is_hidden n)
    rw [filter_visible_not_dot] at h
    exact h
  refine ⟨_, he, ?_, ?_, ?_⟩
  · rw [hp]; exact hperm
  · intro n
    rw [hp, hperm.mem_iff]
    simp [List.mem_filter]
  · intro hnd
    rw [hp]
    exact hperm.nodup_iff.2 (hnd.filter _)

/-! ## The block of names, with and without recursion -/

theorem subdir_loop_returns (recurse : CStr → Except Fault (List Event × Bool)) (path : CStr)
    (subs : List CStr) :
    (∀ d ∈ subs, ∃ r, recurse (snprintf_path path d) = .ok r) →
    ∀ flag : Bool, ∃ fin, subdir_loop recurse path true subs flag =
      .ok ((if flag && !subs.isEmpty then [Event.header path] else []) ++
        subs.flatMap (fun d => Event.newline ::
          (match recurse (snprintf_path path d) with
            | .ok (t, _) => t
            | .error _ => [])), fin) := by
  induction subs with
  | nil => intro _ flag; exact ⟨false, by simp [subdir_loop]⟩
  | cons d rest ih =>
    intro h flag
    obtain ⟨⟨t, f⟩, hd⟩ := h d (by simp)
    obtain ⟨fin, hrest⟩ := ih (fun m hm => h m (by simp [hm])) false
    simp only [Bool.false_and, if_false, List.nil_append] at hrest
    refine ⟨f || fin, ?_⟩
    unfold subdir_loop
    simp only [if_true, hd, hrest, List.flatMap_cons]
    cases flag <;> simp

/-- The listing of a directory, with or without recursion, when the recursive calls
return. -/
theorem list_directory_block (env : Env) (fs : FileSystem) (path : CStr) (names : List CStr)
    (is_recursive show_index show_details : Bool) (fuel : Nat)
    (hopen : fs.opendir path = some names)
    (hcap : (stored_entries fs path names).length ≤ MAX_ENTRIES)
    (hres : show_details = true → ∀ n ∈ stored_entries fs path names, ∀ st,
      fs.lstat (snprintf_path path n) = some st →
      is_suppressed (snprintf_path path n) = false → resolves env st = true)
    (hrec : is_recursive = true → ∀ d ∈ stored_subdirectories fs path names, ∃ r,
      list_directory env fs fuel (snprintf_path path d) true show_index show_details = .ok r) :
    ∃ lines fin, list_directory env fs (fuel + 1) path is_recursive show_index show_details =
        .ok (Event.call path :: read_errors fs path names ++
          (if (stored_entries fs path names).isEmpty then [] else [Event.header path]) ++ lines ++
          (if is_recursive then
            (sort_lexicographically (stored_subdirectories fs path names)
              (stored_subdirectories fs path names).length).flatMap fun d =>
                Event.newline :: listing env fs fuel
                  { show_index := show_index, show_details := show_details,
                    is_recursive := true } (snprintf_path path d)
          else []), fin) ∧
      (is_recursive = false → fin = false) ∧
      (∀ e ∈ lines, e.is_entry = true) ∧
      printed_names lines =
        ((sort_lexicographically (stored_entries fs path names)
            (stored_entries fs path names).length).filter
          fun n => !is_suppressed (snprintf_path path n)).map
          fun n => printed_name (snprintf_path path n) := by
  cases is_recursive with
  | false =>
    obtain ⟨lines, he, hent, hnames⟩ := list_directory_flat env fs path names show_index
      show_details fuel hopen hcap hres
    exact ⟨lines, false, by simpa using he, fun _ => rfl, hent, hnames⟩
  | true =>
    have hread := read_loop_eq fs path names ⟨[], [], []⟩ (by simp) (by simpa using hcap)
    simp only [List.nil_append] at hread
    have hperm := (sort_spec (stored_entries fs path names)).2
    have hperm2 := (sort_spec (stored_subdirectories fs path names)).2
    obtain ⟨lines, hp, hent, hnames⟩ := print_loop_spec env fs path show_index show_details
      (sort_lexicographically (stored_entries fs path names)
        (stored_entries fs path names).length)
      true (by
        intro n hn
        have hn' := hperm.subset hn
        obtain ⟨_, _, st, hl⟩ := mem_stored_entries hn'
        exact ⟨st, hl, fun hs hd => hres hd n hn' st hl hs⟩)
    obtain ⟨fin, hsub⟩ := subdir_loop_returns
      (fun p => list_directory env fs fuel p true show_index show_details) path
      (sort_lexicographically (stored_subdirectories fs path names)
        (stored_subdirectories fs path names).length)
      (fun d hd => hrec rfl d (hperm2.subset hd))
      (true && (sort_lexicographically (stored_entries fs path names)
        (stored_entries fs path names).length).isEmpty)
    refine ⟨lines, fin, ?_, fun h => absurd h (by simp), hent, hnames⟩
    have hempty : (sort_lexicographically (stored_entries fs path names)
        (stored_entries fs path names).length).isEmpty =
        (stored_entries fs path names).isEmpty :=
      isEmpty_eq_of_length_eq _ _ hperm.length_eq
    have hnone : (stored_entries fs path names).isEmpty = true →
        (sort_lexicographically (stored_subdirectories fs path names)
          (stored_subdirectories fs path names).length).isEmpty = true := by
      intro he
      have h1 : stored_entries fs path names = [] := by simpa using he
      have h2 := stored_subdirectories_sublist fs path names
      rw [h1] at h2
      have h3 : stored_subdirectories fs path names = [] := by simpa using h2
      rw [h3]
      rfl
    rw [hempty] at hsub hp
    unfold list_directory
    cases he : (stored_entries fs path names).isEmpty with
    | true =>
      have hn := hnone he
      simp only [he, hn, Bool.and_self, Bool.not_true, Bool.and_false, Bool.false_eq_true,
        if_false, List.nil_append] at hsub hp
      simp [hopen, hread, hp, hsub, listing]
    | false =>
      simp only [he, Bool.and_false, Bool.false_and, Bool.not_false, Bool.and_true,
        Bool.false_eq_true, if_false, if_true, List.nil_append] at hsub hp
      simp [hopen, hread, hp, hsub, listing]

theorem flatMap_congr_mem {α β : Type} (l : List α) (f g : α → List β)
    (h : ∀ a ∈ l, f a = g a) : l.flatMap f = l.flatMap g := by
  induction l with
  | nil => rfl
  | cons a t ih =>
    simp only [List.flatMap_cons]
    rw [h a (by simp), ih (fun b hb => h b (by simp [hb]))]

/-- C3 (amended): for every directory whose entries all have readable metadata,
with at most `MAX_ENTRIES` entries other than `.` and `..`, whose entry paths fit in
`MAX_PATH_LENGTH - 1` bytes and, with show-details, whose visible entries have an
owner, a group and a date that resolve, `list_directory`, with or without recursion
(with recursion: when the listings of the subdirectories return), prints after the
header the names of all visible entries, directories and non-directories together,
as one contiguous block of entry lines in lexicographic (`strcmp`) order, before any
subdirectory is entered; without recursion nothing follows the block, with recursion
only the listings of the subdirectories follow, each after a newline, in `strcmp`
order of their names. -/
theorem list_directory_prints_one_sorted_block (env : Env) (fs : FileSystem) (path : CStr)
    (names : List CStr) (is_recursive show_index show_details : Bool) (fuel : Nat)
    (hopen : fs.opendir path = some names)
    (hmeta : ∀ n ∈ names, not_dot n = true → (fs.lstat (path ++ '/' :: n)).isSome = true)
    (hslash : ∀ n ∈ names, '/' ∉ n)
    (hfit : ∀ n ∈ names, not_dot n = true → path.length + 1 + n.length < MAX_PATH_LENGTH)
    (hcap : (names.filter not_dot).length ≤ MAX_ENTRIES)
    (hres : show_details = true → ∀ n ∈ names, is_hidden n = false →
      entry_resolves env fs (path ++ '/' :: n) = true)
    (hrec : is_recursive = true → ∀ d ∈ names, not_dot d = true →
      is_directory fs (path ++ '/' :: d) = true → ∃ r,
        list_directory env fs fuel (path ++ '/' :: d) true show_index show_details = .ok r) :
    ∃ lines fin, list_directory env fs (fuel + 1) path is_recursive show_index show_details =
        .ok (Event.call path ::
          (if (names.filter not_dot).isEmpty then [] else [Event.header path]) ++ lines ++
          (if is_recursive then
            (sort_lexicographically
              (names.filter fun n => not_dot n && is_directory fs (path ++ '/' :: n))
              (names.filter fun n =>
                not_dot n && is_directory fs (path ++ '/' :: n)).length).flatMap fun d =>
                Event.newline :: listing env fs fuel
                  { show_index := show_index, show_details := show_details,
                    is_recursive := true } (path ++ '/' :: d)
          else []), fin) ∧
      (is_recursive = false → fin = false) ∧
      (∀ e ∈ lines, e.is_entry = true) ∧
      (printed_names lines).Pairwise (fun a b => strcmp a b ≤ 0) ∧
      (printed_names lines).Perm (names.filter fun n => !is_hidden n) := by
  have hstored : stored_entries fs path names = names.filter not_dot := by
    unfold stored_entries
    apply List.filter_congr
    intro n hn
    by_cases hnd : not_dot n = true
    · rw [snprintf_path_fits path n (hfit n hn hnd), hmeta n hn hnd, hnd]; rfl
    · simp [hnd]
  have hstoredsub : stored_subdirectories fs path names =
      names.filter fun n => not_dot n && is_directory fs (path ++ '/' :: n) := by
    unfold stored_subdirectories
    apply List.filter_congr
    intro n hn
    by_cases hnd : not_dot n = true
    · rw [snprintf_path_fits path n (hfit n hn hnd)]
    · simp [hnd]
  have herr : read_errors fs path names = [] := by
    unfold read_errors
    rw [List.map_eq_nil_iff, List.filter_eq_nil_iff]
    intro n hn
    by_cases hnd : not_dot n = true
    · have := hmeta n hn hnd
      rw [snprintf_path_fits path n (hfit n hn hnd)]
      simp [hnd, Option.isSome_iff_exists] at this ⊢
      obtain ⟨st, hst⟩ := this
      simp [hst]
    · simp [hnd]
  have hmem : ∀ n ∈ names.filter not_dot, n ∈ names ∧ not_dot n = true := by
    intro n hn
    simpa [List.mem_filter] using hn
  have hmemsub : ∀ d ∈ stored_subdirectories fs path names,
      d ∈ names ∧ not_dot d = true ∧ is_directory fs (path ++ '/' :: d) = true := by
    intro d hd
    rw [hstoredsub] at hd
    simpa [List.mem_filter] using hd
  obtain ⟨lines, fin, he, hfin, hent, hnames⟩ := list_directory_block env fs path names
    is_recursive show_index show_details fuel hopen (by rw [hstored]; exact hcap)
    (by
      intro hd n hn st hl hs
      rw [hstored] at hn
      obtain ⟨hn1, hn2⟩ := hmem n hn
      rw [snprintf_path_fits path n (hfit n hn1 hn2)] at hl hs
      rw [is_suppressed_append path n (hslash n hn1)] at hs
      have := hres hd n hn1 hs
      simpa [entry_resolves, hl] using this)
    (by
      intro hr d hd
      obtain ⟨h1, h2, h3⟩ := hmemsub d hd
      rw [snprintf_path_fits path d (hfit d h1 h2)]
      exact hrec hr d h1 h2 h3)
  have hperm := (sort_spec (names.filter not_dot)).2
  have hsorted : ∀ n ∈ sort_lexicographically (names.filter not_dot)
      (names.filter not_dot).length, n ∈ names ∧ not_dot n = true :=
    fun n hn => hmem n (hperm.subset hn)
  have hnames' : printed_names lines =
      (sort_lexicographically (names.filter not_dot) (names.filter not_dot).length).filter
        fun n => !is_hidden n := by
    rw [hnames, hstored]
    rw [List.filter_congr (q := fun n => !is_hidden n), List.map_congr_left, List.map_id']
    · intro n hn
      have hn' := hsorted n (List.mem_filter.1 hn).1
      rw [snprintf_path_fits path n (hfit n hn'.1 hn'.2),
        printed_name_append path n (hslash n hn'.1)]
    · intro n hn
      have hn' := hsorted n hn
      rw [snprintf_path_fits path n (hfit n hn'.1 hn'.2),
        is_suppressed_append path n (hslash n hn'.1)]
      rfl
  have hbelow : (sort_lexicographically (stored_subdirectories fs path names)
        (stored_subdirectories fs path names).length).flatMap (fun d =>
          Event.newline :: listing env fs fuel
            { show_index := show_index, show_details := show_details,
              is_recursive := true } (snprintf_path path d)) =
      (sort_lexicographically (stored_subdirectories fs path names)
        (stored_subdirectories fs path names).length).flatMap (fun d =>
          Event.newline :: listing env fs fuel
            { show_index := show_index, show_details := show_details,
              is_recursive := true } (path ++ '/' :: d)) := by
    apply flatMap_congr_mem
    intro d hd
    obtain ⟨h1, h2, _⟩ := hmemsub d ((sort_spec (stored_subdirectories fs path names)).2.subset hd)
    rw [snprintf_path_fits path d (hfit d h1 h2)]
  rw [hbelow, hstored, herr, hstoredsub] at he
  refine ⟨lines, fin, by simpa using he, hfin, hent, ?_, ?_⟩
  · rw [hnames']
    exact (sort_spec (names.filter not_dot)).1.filter _
  · rw [hnames']
    have h := (sort_spec (names.filter not_dot)).2.filter (fun n => !is_hidden n)
    rw [filter_visible_not_dot] at h
    exact h

/-! ## A listing without recursion depends on the directory's own entries -/

theorem print_file_info_congr (env : Env) (fs₁ fs₂ : FileSystem) (p : CStr)
    (show_index show_details : Bool) (hl : fs₁.lstat p = fs₂.lstat p)
    (hr : fs₁.readlink p = fs₂.readlink p) :
    print_file_info env fs₁ p show_index show_details =
      print_file_info env fs₂ p show_index show_details := by
  simp only [print_file_info, link_target, hl, hr]

theorem read_loop_congr (fs₁ fs₂ : FileSystem) (path : CStr) (names : List CStr) :
    (∀ n ∈ names, not_dot n = true →
      fs₁.lstat (snprintf_path path n) = fs₂.lstat (snprintf_path path n)) →
    ∀ s : Scan, read_loop fs₁ path names s = read_loop fs₂ path names s := by
  induction names with
  | nil => intro _ s; rfl
  | cons n rest ih =>
    intro h s
    have ih' := ih (fun m hm => h m (by simp [hm]))
    unfold read_loop
    by_cases hd : strcmp n (cstr ".") ≠ 0 ∧ strcmp n (cstr "..") ≠ 0
    · have hnd : not_dot n = true := by simp only [not_dot]; exact decide_eq_true hd
      rw [if_pos hd, if_pos hd, h n (by simp) hnd]
      cases fs₂.lstat (snprintf_path path n) with
      | none => exact ih' _
      | some st => simp only [ih']
    · rw [if_neg hd, if_neg hd]
      exact ih' _

theorem print_loop_congr (env : Env) (fs₁ fs₂ : FileSystem) (path : CStr)
    (show_index show_details : Bool) (names : List CStr) :
    (∀ n ∈ names, fs₁.lstat (snprintf_path path n) = fs₂.lstat (snprintf_path path n) ∧
      fs₁.readlink (snprintf_path path n) = fs₂.readlink (snprintf_path path n)) →
    ∀ flag : Bool, print_loop env fs₁ path show_index show_details names flag =
      print_loop env fs₂ path show_index show_details names flag := by
  induction names with
  | nil => intro _ flag; rfl
  | cons n rest ih =>
    intro h flag
    have ih' := ih (fun m hm => h m (by simp [hm]))
    obtain ⟨hl, hr⟩ := h n (by simp)
    unfold print_loop
    simp only [hl, ih', print_file_info_congr env fs₁ fs₂ _ show_index show_details hl hr]

theorem read_loop_errors (fs : FileSystem) (path : CStr) (names : List CStr) :
    ∀ s s' : Scan, read_loop fs path names s = .ok s' →
      s'.errors = s.errors ++ read_errors fs path names := by
  induction names with
  | nil =>
    intro s s' h
    simp only [read_loop, Except.ok.injEq] at h
    subst h
    simp [read_errors]
  | cons n rest ih =>
    intro s s' h
    unfold read_loop at h
    by_cases hd : strcmp n (cstr ".") ≠ 0 ∧ strcmp n (cstr "..") ≠ 0
    · have hnd : not_dot n = true := by simp only [not_dot]; exact decide_eq_true hd
      rw [if_pos hd] at h
      cases hl : fs.lstat (snprintf_path path n) with
      | none =>
        rw [hl] at h
        have := ih _ _ h
        simpa [read_errors, List.filter_cons, hnd, hl] using this
      | some st =>
        rw [hl] at h
        simp only at h
        by_cases hdir : S_ISDIR st.st_mode = true
        · rw [if_pos hdir] at h
          split at h
          · have := ih _ _ h
            simpa [read_errors, List.filter_cons, hnd, hl] using this
          · cases h
        · rw [if_neg hdir] at h
          split at h
          · have := ih _ _ h
            simpa [read_errors, List.filter_cons, hnd, hl] using this
          · cases h
    · have hnd : not_dot n = false := by simp only [not_dot]; exact decide_eq_false hd
      rw [if_neg hd] at h
      have := ih _ _ h
      simpa [read_errors, List.filter_cons, hnd] using this

theorem print_file_info_ok_inv (env : Env) (fs : FileSystem) (p : CStr) (st : Stat)
    (show_index show_details : Bool) (line : List Event) (hl : fs.lstat p = some st)
    (h : print_file_info env fs p show_index show_details = .ok line) :
    (∀ e ∈ line, e.is_entry = true) ∧
      printed_names line = if is_suppressed p then [] else [printed_name p] := by
  unfold print_file_info at h
  simp only [hl] at h
  by_cases hs : is_suppressed p = true
  · simp only [hs, if_true, Except.ok.injEq] at h
    subst h
    simp [hs, printed_names]
  · simp only [hs, Bool.false_eq_true, if_false] at h
    cases show_details with
    | false =>
      simp only [Bool.false_eq_true, if_false, Except.ok.injEq] at h
      subst h
      simp [hs, printed_names, Event.is_entry]
    | true =>
      simp only [if_true] at h
      split at h
      · simp only [Except.ok.injEq] at h
        subst h
        simp [hs, printed_names, Event.is_entry]
      · cases h

theorem print_loop_inv (env : Env) (fs : FileSystem) (path : CStr)
    (show_index show_details : Bool) (names : List CStr) :
    ∀ (flag : Bool) (tr : List Event) (fl : Bool),
      (∀ n ∈ names, (fs.lstat (snprintf_path path n)).isSome = true) →
      print_loop env fs path show_index show_details names flag = .ok (tr, fl) →
      ∃ lines, tr = (if flag && !names.isEmpty then [Event.header path] else []) ++ lines ∧
        fl = (flag && names.isEmpty) ∧
        (∀ e ∈ lines, e.is_entry = true) ∧
        printed_names lines =
          (names.filter fun n => !is_suppressed (snprintf_path path n)).map
            fun n => printed_name (snprintf_path path n) := by
  induction names with
  | nil =>
    intro flag tr fl _ h
    simp only [print_loop, Except.ok.injEq, Prod.mk.injEq] at h
    exact ⟨[], by simp [h.1], by simp [h.2], by simp, by simp [printed_names]⟩
  | cons n rest ih =>
    intro flag tr fl hsome h
    obtain ⟨st, hl⟩ := Option.isSome_iff_exists.1 (hsome n (by simp))
    unfold print_loop at h
    simp only [hl] at h
    cases hp : print_file_info env fs (snprintf_path path n) show_index show_details with
    | error f => rw [hp] at h; cases h
    | ok line =>
      rw [hp] at h
      simp only at h
      cases hrest : print_loop env fs path show_index show_details rest false with
      | error f => rw [hrest] at h; cases h
      | ok r =>
        obtain ⟨tr', fl'⟩ := r
        rw [hrest] at h
        simp only [Except.ok.injEq, Prod.mk.injEq] at h
        obtain ⟨lines, e1, e2, e3, e4⟩ :=
          ih false tr' fl' (fun m hm => hsome m (by simp [hm])) hrest
        simp only [Bool.false_and, if_false, List.nil_append] at e1 e2
        obtain ⟨i1, i2⟩ := print_file_info_ok_inv env fs _ st _ _ line hl hp
        refine ⟨line ++ lines, ?_, ?_, ?_, ?_⟩
        · rw [← h.1, e1]; cases flag <;> simp
        · rw [← h.2, e2]; cases flag <;> simp
        · intro e he
          rcases List.mem_append.1 he with he | he
          · exact i1 e he
          · exact e3 e he
        · rw [printed_names_append, i2, e4]
          by_cases hs : is_suppressed (snprintf_path path n) = true
          · simp [List.filter_cons, hs]
          · simp [List.filter_cons, hs]

theorem list_directory_flat_inv (env : Env) (fs : FileSystem) (path : CStr) (names : List CStr)
    (show_index show_details : Bool) (fuel : Nat) (trace : List Event) (fin : Bool)
    (hopen : fs.opendir path = some names)
    (h : list_directory env fs fuel path false show_index show_details = .ok (trace, fin)) :
    ∃ lines, trace = Event.call path :: read_errors fs path names ++
          (if (stored_entries fs path names).isEmpty then [] else [Event.header path]) ++ lines ∧
      fin = false ∧
      (∀ e ∈ lines, e.is_entry = true) ∧
      printed_names lines =
        ((sort_lexicographically (stored_entries fs path names)
            (stored_entries fs path names).length).filter
          fun n => !is_suppressed (snprintf_path path n)).map
          fun n => printed_name (snprintf_path path n) := by
  cases fuel with
  | zero => simp [list_directory] at h
  | succ fuel =>
    unfold list_directory at h
    simp only [hopen] at h
    cases hr : read_loop fs path names ⟨[], [], []⟩ with
    | error f => rw [hr] at h; cases h
    | ok scan =>
      rw [hr] at h
      simp only at h
      obtain ⟨he, hsd⟩ := read_loop_ok fs path names _ _ hr
      have herr := read_loop_errors fs path names _ _ hr
      simp only [List.nil_append] at he hsd herr
      rw [he, hsd, herr] at h
      have hperm := (sort_spec (stored_entries fs path names)).2
      cases hp : print_loop env fs path show_index show_details
          (sort_lexicographically (stored_entries fs path names)
            (stored_entries fs path names).length) true with
      | error f => rw [hp] at h; cases h
      | ok r =>
        obtain ⟨tr, fl⟩ := r
        rw [hp] at h
        simp only [subdir_loop_flat, Except.ok.injEq, Prod.mk.injEq] at h
        obtain ⟨lines, e1, e2, e3, e4⟩ := print_loop_inv env fs path show_index show_details _
          true tr fl (by
            intro n hn
            obtain ⟨_, _, st, hl⟩ := mem_stored_entries (hperm.subset hn)
            simp [hl]) hp
        have hempty := isEmpty_eq_of_length_eq _ _ hperm.length_eq
        have hsub : (stored_entries fs path names).isEmpty = true →
            (sort_lexicographically (stored_subdirectories fs path names)
              (stored_subdirectories fs path names).length).isEmpty = true := by
          intro hemp
          have h1 : stored_entries fs path names = [] := by simpa using hemp
          have h2 := stored_subdirectories_sublist fs path names
          rw [h1] at h2
          have h3 : stored_subdirectories fs path names = [] := by simpa using h2
          rw [h3]
          rfl
        refine ⟨lines, ?_, h.2.symm, e3, e4⟩
        rw [← h.1, e1, e2, hempty]
        cases hemp : (stored_entries fs path names).isEmpty with
        | true => simp [hsub hemp]
        | false => simp

theorem visited_flat (path : CStr) (errs lines : List Event) (b : Bool)
    (herrs : ∀ e ∈ errs, e = Event.perror) (hlines : ∀ e ∈ lines, e.is_entry = true) :
    visited (Event.call path :: errs ++ (if b then [] else [Event.header path]) ++ lines) =
      [path] := by
  have h1 : visited errs = [] := by
    simp only [visited, List.filterMap_eq_nil_iff]
    intro e he
    rw [herrs e he]
  have h2 : visited lines = [] := by
    simp only [visited, List.filterMap_eq_nil_iff]
    intro e he
    have := hlines e he
    cases e <;> simp_all [Event.is_entry]
  have happ : ∀ a b : List Event, visited (a ++ b) = visited a ++ visited b := by
    intro a b; simp [visited, List.filterMap_append]
  have h3 : visited (if b then [] else [Event.header path]) = [] := by
    cases b <;> rfl
  rw [List.cons_append, List.cons_append]
  show visited ([Event.call path] ++ (errs ++ (if b then [] else [Event.header path]) ++ lines))
    = [path]
  rw [happ, happ, happ, h1, h2, h3]
  rfl

theorem read_errors_perror (fs : FileSystem) (path : CStr) (names : List CStr) :
    ∀ e ∈ read_errors fs path names, e = Event.perror := by
  intro e he
  simp only [read_errors, List.mem_map] at he
  obtain ⟨_, _, rfl⟩ := he
  rfl

/-- C9 (amended): for a directory whose entry paths `path/name` fit in
`MAX_PATH_LENGTH - 1` bytes, the result of `list_directory` without recursion is the
same on two file systems that agree on the directory's entries and on their
metadata and link targets; and when it returns, the trace enters no other
directory, has no header other than the directory's own, prints only names of the
directory's entries, and prints the name of every visible subdirectory. -/
theorem list_directory_flat_depends_on_own_entries (env : Env) (fs₁ fs₂ : FileSystem)
    (path : CStr) (names : List CStr) (show_index show_details : Bool) (fuel : Nat)
    (h₁ : fs₁.opendir path = some names) (h₂ : fs₂.opendir path = some names)
    (hslash : ∀ n ∈ names, '/' ∉ n)
    (hfit : ∀ n ∈ names, not_dot n = true → path.length + 1 + n.length < MAX_PATH_LENGTH)
    (hmeta : ∀ n ∈ names, not_dot n = true →
      fs₁.lstat (path ++ '/' :: n) = fs₂.lstat (path ++ '/' :: n) ∧
      fs₁.readlink (path ++ '/' :: n) = fs₂.readlink (path ++ '/' :: n)) :
    list_directory env fs₁ fuel path false show_index show_details =
      list_directory env fs₂ fuel path false show_index show_details ∧
    ∀ trace fin, list_directory env fs₁ fuel path false show_index show_details =
        .ok (trace, fin) →
      visited trace = [path] ∧
      (∀ p, Event.header p ∈ trace → p = path) ∧
      (∀ n ∈ printed_names trace, n ∈ names) ∧
      (∀ n ∈ names, is_directory fs₁ (path ++ '/' :: n) = true → is_hidden n = false →
        n ∈ printed_names trace) := by
  have hagree : ∀ n ∈ names, not_dot n = true →
      fs₁.lstat (snprintf_path path n) = fs₂.lstat (snprintf_path path n) ∧
      fs₁.readlink (snprintf_path path n) = fs₂.readlink (snprintf_path path n) := by
    intro n hn hnd
    rw [snprintf_path_fits path n (hfit n hn hnd)]
    exact hmeta n hn hnd
  constructor
  · cases fuel with
    | zero => rfl
    | succ fuel =>
      unfold list_directory
      simp only [h₁, h₂]
      rw [read_loop_congr fs₁ fs₂ path names (fun n hn hnd => (hagree n hn hnd).1)]
      cases hr : read_loop fs₂ path names ⟨[], [], []⟩ with
      | error f => rfl
      | ok scan =>
        simp only [subdir_loop_flat]
        obtain ⟨he, _⟩ := read_loop_ok fs₂ path names _ _ hr
        simp only [List.nil_append] at he
        rw [print_loop_congr env fs₁ fs₂ path show_index show_details]
        intro n hn
        have hn' : n ∈ stored_entries fs₂ path names := by
          rw [← he]; exact (sort_spec scan.entries).2.subset hn
        obtain ⟨hn1, hn2, _⟩ := mem_stored_entries hn'
        exact hagree n hn1 hn2
  · intro trace fin h
    obtain ⟨lines, e1, _, e3, e4⟩ :=
      list_directory_flat_inv env fs₁ path names show_index show_details fuel trace fin h₁ h
    have hperm := (sort_spec (stored_entries fs₁ path names)).2
    have hpn : printed_names trace = printed_names lines := by
      rw [e1]
      rw [List.cons_append, List.cons_append]
      show printed_names ([Event.call path] ++ (read_errors fs₁ path names ++
        (if (stored_entries fs₁ path names).isEmpty then [] else [Event.header path]) ++ lines))
        = printed_names lines
      rw [printed_names_append, printed_names_append, printed_names_append,
        printed_names_read_errors]
      cases (stored_entries fs₁ path names).isEmpty <;> simp [printed_names]
    have hin : ∀ n ∈ sort_lexicographically (stored_entries fs₁ path names)
        (stored_entries fs₁ path names).length, n ∈ names ∧ not_dot n = true := by
      intro n hn
      obtain ⟨a, b, _⟩ := mem_stored_entries (hperm.subset hn)
      exact ⟨a, b⟩
    refine ⟨?_, ?_, ?_, ?_⟩
    · rw [e1]
      exact visited_flat path _ lines _ (read_errors_perror fs₁ path names) e3
    · intro p hp
      rw [e1] at hp
      simp only [List.cons_append, List.mem_cons, List.mem_append] at hp
      rcases hp with hp | (hp | hp) | hp
      · cases hp
      · cases read_errors_perror fs₁ path names _ hp
      · cases hemp : (stored_entries fs₁ path names).isEmpty <;> simp [hemp] at hp
        exact hp
      · have := e3 _ hp
        simp [Event.is_entry] at this
    · intro n hn
      rw [hpn, e4, List.mem_map] at hn
      obtain ⟨m, hm, rfl⟩ := hn
      obtain ⟨hm1, hm2⟩ := hin m (List.mem_filter.1 hm).1
      rw [snprintf_path_fits path m (hfit m hm1 hm2), printed_name_append path m (hslash m hm1)]
      exact hm1
    · intro n hn hdir hvis
      have hnd : not_dot n = true := by
        by_contra hc
        have := is_hidden_of_not_dot_false n (by simpa using hc)
        rw [hvis] at this
        cases this
      have hfits := snprintf_path_fits path n (hfit n hn hnd)
      have hst : n ∈ stored_entries fs₁ path names := by
        simp only [stored_entries, List.mem_filter, Bool.and_eq_true]
        refine ⟨hn, hnd, ?_⟩
        rw [hfits]
        simp only [is_directory] at hdir
        cases hl : fs₁.lstat (path ++ '/' :: n) with
        | none => simp [hl] at hdir
        | some st => rfl
      rw [hpn, e4, List.mem_map]
      refine ⟨n, List.mem_filter.2 ⟨hperm.symm.subset hst, ?_⟩, ?_⟩
      · rw [hfits, is_suppressed_append path n (hslash n hn)]
        simpa [is_hidden] using hvis
      · rw [hfits, printed_name_append path n (hslash n hn)]

/-! ## Recursive listing of a directory tree -/

theorem scenario_fs_consistent : scenario_fs.consistent := by
  intro p h
  by_cases h1 : p = cstr "/tmp/x"
  · subst h1; decide
  · by_cases h2 : p = cstr "/tmp/x/sub"
    · subst h2; decide
    · exfalso
      simp only [is_directory, scenario_fs, h1, h2, or_self, if_false] at h
      split at h
      · rename_i st hst
        split at hst
        · cases hst
          revert h
          decide
        · cases hst
      · cases h

/-- The scenario of the specification: `/tmp/x` with the files `b.txt`, `a.txt` and
the subdirectory `sub`, listed without flags. -/
theorem scenario_listing :
    list_directory example_env scenario_fs 1 (cstr "/tmp/x") false false false =
      .ok ([Event.call (cstr "/tmp/x"), Event.header (cstr "/tmp/x"),
            Event.entry none none (cstr "a.txt"), Event.entry none none (cstr "b.txt"),
            Event.entry none none (cstr "sub")], false) ∧
    stdout [Event.call (cstr "/tmp/x"), Event.header (cstr "/tmp/x"),
            Event.entry none none (cstr "a.txt"), Event.entry none none (cstr "b.txt"),
            Event.entry none none (cstr "sub")] = cstr "/tmp/x:\na.txt\nb.txt\nsub\n" :=
  ⟨by rfl, by rfl⟩

theorem list_directory_prints_visible_names_witness :
    ∃ trace, list_directory example_env scenario_fs (0 + 1) (cstr "/tmp/x") false false true =
        .ok (trace, false) ∧
      (printed_names trace).Perm (scenario_names.filter fun n => !is_hidden n) ∧
      (∀ n, n ∈ printed_names trace ↔ n ∈ scenario_names ∧ is_hidden n = false) ∧
      (scenario_names.Nodup → (printed_names trace).Nodup) :=
  list_directory_prints_visible_names example_env scenario_fs (cstr "/tmp/x") scenario_names
    false true 0 (by decide) (by decide) (by decide) (by decide) (by decide)
    (fun _ => by decide)

set_option maxRecDepth 100000 in
/-- C2 (as stated) fails in a directory with a long path: `long_parent` (1020 bytes)
holds `he` and `hello`, both with readable metadata; the path built for `hello` is
cut to `long_parent/he`, so `he` is printed twice and `hello` never. -/
theorem list_directory_prints_visible_names_counterexample :
    long_parent_fs.opendir long_parent = some [cstr ".", cstr "..", cstr "he", cstr "hello"] ∧
    (long_parent_fs.lstat (long_parent ++ '/' :: cstr "he")).isSome = true ∧
    (long_parent_fs.lstat (long_parent ++ '/' :: cstr "hello")).isSome = true ∧
    list_directory example_env long_parent_fs 1 long_parent false false false =
      .ok ([Event.call long_parent, Event.header long_parent,
            Event.entry none none (cstr "he"), Event.entry none none (cstr "he")], false) ∧
    printed_names [Event.call long_parent, Event.header long_parent,
      Event.entry none none (cstr "he"), Event.entry none none (cstr "he")] =
      [cstr "he", cstr "he"] ∧
    is_hidden (cstr "hello") = false ∧
    cstr "hello" ∉ [cstr "he", cstr "he"] :=
  ⟨by rfl, by rfl, by rfl, by rfl, by rfl, by rfl, by decide⟩

theorem list_directory_prints_one_sorted_block_witness :
    ∃ lines fin, list_directory example_env tree_fs (1 + 1) (cstr "r") true false true =
        .ok (Event.call (cstr "r") ::
          (if (tree_names.filter not_dot).isEmpty then [] else [Event.header (cstr "r")]) ++
          lines ++
          (if true then
            (sort_lexicographically
              (tree_names.filter fun n => not_dot n && is_directory tree_fs (cstr "r" ++ '/' :: n))
              (tree_names.filter fun n =>
                not_dot n && is_directory tree_fs (cstr "r" ++ '/' :: n)).length).flatMap fun d =>
                Event.newline :: listing example_env tree_fs 1
                  { show_index := false, show_details := true,
                    is_recursive := true } (cstr "r" ++ '/' :: d)
          else []), fin) ∧
      (true = false → fin = false) ∧
      (∀ e ∈ lines, e.is_entry = true) ∧
      (printed_names lines).Pairwise (fun a b => strcmp a b ≤ 0) ∧
      (printed_names lines).Perm (tree_names.filter fun n => !is_hidden n) :=
  list_directory_prints_one_sorted_block example_env tree_fs (cstr "r") tree_names true false
    true 1 (by decide) (by decide) (by decide) (by decide) (by decide) (fun _ => by decide)
    (by
      intro _ d hd hnd hdir
      simp only [tree_names, List.mem_cons, List.mem_singleton, List.not_mem_nil,
        or_false] at hd
      rcases hd with rfl | rfl | rfl | rfl | rfl
      · exact absurd hnd (by decide)
      · exact absurd hnd (by decide)
      · exact ⟨_, rfl⟩
      · exact absurd hdir (by decide)
      · exact ⟨_, rfl⟩)

/-- The recursive listing of `r`: the block `a`, `b`, `c`, then the
listings of `r/a` and `r/b`. -/
theorem tree_listing :
    (list_directory example_env tree_fs 2 (cstr "r") true false false).map
        (fun r => (printed_names r.1, visited r.1)) =
      .ok ([cstr "a", cstr "b", cstr "c", cstr "f"], [cstr "r", cstr "r/a", cstr "r/b"]) := by
  rfl

/-- C3 (as stated) fails where a directory name sorts before a file name: in `r`
the subdirectories `a` and `b` are printed before the regular file `c`. -/
theorem list_directory_prints_one_sorted_block_counterexample :
    list_directory example_env tree_fs 1 (cstr "r") false false false =
      .ok ([Event.call (cstr "r"), Event.header (cstr "r"),
            Event.entry none none (cstr "a"), Event.entry none none (cstr "b"),
            Event.entry none none (cstr "c")], false) ∧
    is_directory tree_fs (cstr "r/a") = true ∧
    is_directory tree_fs (cstr "r/b") = true ∧
    is_directory tree_fs (cstr "r/c") = false :=
  ⟨by rfl, by rfl, by rfl, by rfl⟩

theorem main_stops_at_first_nonexistent_witness :
    (main example_env scenario_fs (0 + 1)
        [cstr "myls", cstr "/tmp/x", cstr "/nope", cstr "/tmp/x"] =
      .ok ([cstr "/tmp/x"].flatMap
            (fun q => listing example_env scenario_fs (0 + 1) {} q ++ [Event.newline]) ++
            [Event.call (cstr "/nope"), Event.nonexistent], 1) ∧
    stdout ([cstr "/tmp/x"].flatMap
            (fun q => listing example_env scenario_fs (0 + 1) {} q ++ [Event.newline]) ++
            [Event.call (cstr "/nope"), Event.nonexistent]) =
      ([cstr "/tmp/x"].flatMap fun q =>
          stdout (listing example_env scenario_fs (0 + 1) {} q) ++ cstr "\n") ++
        cstr "Error: Nonexistent files or directories\n") ∧
    stdout ([cstr "/tmp/x"].flatMap
            (fun q => listing example_env scenario_fs (0 + 1) {} q ++ [Event.newline]) ++
            [Event.call (cstr "/nope"), Event.nonexistent]) =
      cstr "/tmp/x:\na.txt\nb.txt\nsub\n\nError: Nonexistent files or directories\n" :=
  ⟨(main_stops_at_first_nonexistent example_env scenario_fs scenario_fs_consistent 0
    [cstr "myls", cstr "/tmp/x", cstr "/nope", cstr "/tmp/x"] {}
    [cstr "/tmp/x", cstr "/nope", cstr "/tmp/x"] rfl).1
    [cstr "/tmp/x"] (cstr "/nope") [cstr "/tmp/x"] rfl (by decide) (by decide)
    (by
      intro q hq
      simp only [List.mem_singleton] at hq
      subst hq
      exact ⟨_, rfl⟩), by rfl⟩

theorem list_directory_flat_depends_on_own_entries_witness :
    list_directory example_env scenario_fs 1 (cstr "/tmp/x") false true true =
      list_directory example_env scenario_fs_deep 1 (cstr "/tmp/x") false true true ∧
    ∀ trace fin, list_directory example_env scenario_fs 1 (cstr "/tmp/x") false true true =
        .ok (trace, fin) →
      visited trace = [cstr "/tmp/x"] ∧
      (∀ p, Event.header p ∈ trace → p = cstr "/tmp/x") ∧
      (∀ n ∈ printed_names trace, n ∈ scenario_names) ∧
      (∀ n ∈ scenario_names, is_directory scenario_fs (cstr "/tmp/x" ++ '/' :: n) = true →
        is_hidden n = false → n ∈ printed_names trace) :=
  list_directory_flat_depends_on_own_entries example_env scenario_fs scenario_fs_deep
    (cstr "/tmp/x") scenario_names true true 1 (by decide) (by decide) (by decide) (by decide)
    (by decide)

set_option maxRecDepth 100000 in
/-- C9 (as stated) fails for a directory with a long path: two hosts agree on the
entries of `long_dir` (1024 bytes) and on their metadata, and differ only in a
sibling of `long_dir`; the path built for the entry `x` is cut to that sibling, so
one listing skips the entry and the other prints a line for the sibling. -/
theorem list_directory_flat_depends_on_own_entries_counterexample :
    long_dir_fs.opendir long_dir = some [cstr ".", cstr "..", cstr "x"] ∧
    long_dir_fs_sibling.opendir long_dir = some [cstr ".", cstr "..", cstr "x"] ∧
    long_dir_fs.lstat (long_dir ++ '/' :: cstr "x") =
      long_dir_fs_sibling.lstat (long_dir ++ '/' :: cstr "x") ∧
    long_dir_fs.readlink (long_dir ++ '/' :: cstr "x") =
      long_dir_fs_sibling.readlink (long_dir ++ '/' :: cstr "x") ∧
    list_directory example_env long_dir_fs 1 long_dir false false false =
      .ok ([Event.call long_dir, Event.perror], false) ∧
    list_directory example_env long_dir_fs_sibling 1 long_dir false false false =
      .ok ([Event.call long_dir, Event.header long_dir, Event.entry none none (cstr "abc")],
        false) :=
  ⟨by rfl, by rfl, by rfl, by rfl, by rfl, by rfl⟩

end Myls
